import Mathlib

/-!
Verification of the reconciliation engine of `CheapWatch` (src/CheapWatch.js).

The JavaScript source is shallowly embedded as pure Lean functions:

* JS `Map` objects (the Snapshot Table `this[_paths]` and the Watch Table
  `this[_watchers]`) become association lists `List (String × _)` with
  JS-`Map` insertion-order semantics (`mapSet`, `mapGet`, `mapDelete`).
* The filesystem seen by `statAsync` / `readdirAsync` becomes an immutable
  tree `FSNode`; a stat is a path lookup in that tree.
* `async` functions that can reject become functions returning a `threw`
  flag alongside their result; a rejection aborts the caller exactly where
  the corresponding `await` sits in the source, keeping all state
  mutations performed up to that point (JS mutates `this` in place).
* JS `path.startsWith(prefix)` becomes `strStartsWith`, a character-list
  prefix test; `full.slice(this[_dir].length + 1)` becomes `relOf`.
* The user-supplied `filter` is an optional `String → Stats → Except Unit Bool`:
  `.ok b` models a (promise of a) boolean, `.error ()` models a throw /
  rejected promise.

Line numbers in comments refer to src/CheapWatch.js.
-/

set_option autoImplicit false

deriving instance DecidableEq for Except

namespace CheapWatch

/-- The subset of an `fs.Stats` record the engine inspects: the
file/directory discriminator (`stats.isDirectory()`), plus an abstract tag
standing for the rest of the stat payload (size, mtime, ...), which the
engine carries around but never inspects. -/
structure Stats where
  isDir : Bool
  tag : Nat
deriving DecidableEq, Repr

/-- An emitted event: `plus` is the `'+'` (create/update) event with its
`isNew` flag, `minus` is the `'-'` (delete) event. -/
inductive WEvent where
  | plus (path : String) (stats : Stats) (isNew : Bool)
  | minus (path : String) (stats : Stats)
deriving DecidableEq, Repr

/-- The `path` field carried by an event. -/
def WEvent.path : WEvent → String
  | .plus p _ _ => p
  | .minus p _ => p

/-- Model of JS `s.startsWith(p)`: `p.data` is a character-prefix of
`s.data`. -/
def strStartsWith (s p : String) : Bool :=
  p.data.isPrefixOf s.data

/-- Model of `full.slice(dir.length + 1)` (line 88 / line 133): drop the
first `dir.length + 1` characters. -/
def relOf (dir full : String) : String :=
  ⟨full.data.drop (dir.data.length + 1)⟩

/-- Relative path of the child `name` of the directory with relative path
`p`: the code builds `full + '/' + sub` and re-slices, which yields `sub`
itself when the parent is the root. -/
def joinRel (p name : String) : String :=
  if p = "" then name else p ++ "/" ++ name

/-- Split a character list at `'/'` separators, `cur` being the reversed
current segment. -/
def splitSegs (cur : List Char) : List Char → List String
  | [] => [⟨cur.reverse⟩]
  | c :: rest => if c = '/' then ⟨cur.reverse⟩ :: splitSegs [] rest else splitSegs (c :: cur) rest

/-- Split a relative path into its `/`-separated segments; the root
relative path `""` has no segments. -/
def segsOf (rel : String) : List String :=
  if rel = "" then [] else splitSegs [] rel.data

/-! ### JS `Map` as an association list (insertion order preserved) -/

/-- `Map.prototype.get`: value of the first (and only) entry with this key. -/
def mapGet (m : List (String × Stats)) (k : String) : Option Stats :=
  match m with
  | [] => none
  | (k1, v1) :: rest => if k1 = k then some v1 else mapGet rest k

/-- `Map.prototype.has`. -/
def mapHas (m : List (String × Stats)) (k : String) : Bool :=
  (mapGet m k).isSome

/-- `Map.prototype.set`: overwrite in place when the key is present
(keeping its position in iteration order), append otherwise. -/
def mapSet (m : List (String × Stats)) (k : String) (v : Stats) : List (String × Stats) :=
  match m with
  | [] => [(k, v)]
  | (k1, v1) :: rest =>
    if k1 = k then (k1, v) :: rest else (k1, v1) :: mapSet rest k v

/-- `Map.prototype.delete`. -/
def mapDelete (m : List (String × Stats)) (k : String) : List (String × Stats) :=
  m.filter (fun kv => kv.1 ≠ k)

/-- `Map.prototype.set` on the Watch Table, whose values (the `FSWatcher`
handles) are not modelled: only the key set matters. An existing key keeps
its position, a new key is appended. -/
def watchSet (w : List String) (k : String) : List String :=
  if w.contains k then w else w ++ [k]

/-! ### The filesystem seen through `statAsync` / `readdirAsync` -/

mutual
/-- A filesystem subtree: a file, or a directory with a named child list
(in `readdir` order). The `tag` stands for the uninspected stat payload. -/
inductive FSNode where
  | file (tag : Nat)
  | dir (tag : Nat) (children : FSList)

/-- A `readdir` listing: names paired with their subtrees. -/
inductive FSList where
  | nil
  | cons (name : String) (node : FSNode) (rest : FSList)
end

/-- The `Stats` of a node, as returned by `statAsync`. -/
def FSNode.statsOf : FSNode → Stats
  | .file t => ⟨false, t⟩
  | .dir t _ => ⟨true, t⟩

/-- Look a child name up in a listing. -/
def FSList.lookup : FSList → String → Option FSNode
  | .nil, _ => none
  | .cons n c rest, k => if n = k then some c else rest.lookup k

/-- The child names of a listing, in order. -/
def FSList.names : FSList → List String
  | .nil => []
  | .cons n _ rest => n :: rest.names

/-- Resolve a segment list against a subtree. -/
def findNode : FSNode → List String → Option FSNode
  | t, [] => some t
  | .file _, _ :: _ => none
  | .dir _ cs, n :: rest =>
    match cs.lookup n with
    | none => none
    | some c => findNode c rest

/-- Model of `statAsync(full)` against the tree rooted at the watched
directory `dir`: `none` is a rejected stat (file not found or any other
error), `some` a successful one. -/
def statFS (fs : FSNode) (dir full : String) : Option Stats :=
  (findNode fs (segsOf (relOf dir full))).map FSNode.statsOf

/-- `true` when no name in the list repeats. -/
def nodupNames : List String → Bool
  | [] => true
  | n :: rest => !rest.contains n && nodupNames rest

mutual
/-- Well-formedness of a filesystem tree: every child name is nonempty,
contains no separator, and names are unique within a directory — exactly
what `readdir` guarantees on a real filesystem. -/
def FSNode.wf : FSNode → Bool
  | .file _ => true
  | .dir _ cs => nodupNames cs.names && cs.wf

/-- Well-formedness of a listing. -/
def FSList.wf : FSList → Bool
  | .nil => true
  | .cons n c rest => n ≠ "" && !n.data.contains '/' && c.wf && rest.wf
end

/-! ### The Recursor (`[_recurse]`, lines 87-107) -/

/-- The user-supplied filter: `.ok b` models a boolean result (possibly a
promise of one), `.error ()` a throw or promise rejection. -/
def Filt := String → Stats → Except Unit Bool

/-- `if (this[_filter] && !await this[_filter]({ path, stats })) return;`
— a missing filter accepts everything. -/
def applyFilt (f : Option Filt) (p : String) (st : Stats) : Except Unit Bool :=
  match f with
  | none => .ok true
  | some f => f p st

/-- What one `[_recurse]` call adds to the instance: Snapshot Table
entries and Watch Table keys, in insertion order, plus whether the call
threw (a filter throw aborts the walk; mutations made so far persist). -/
structure RAcc where
  paths : List (String × Stats)
  watchers : List String
  threw : Bool
deriving DecidableEq, Repr

mutual
/-- `[_recurse]` (lines 87-107) on the subtree `t` whose relative path is
`r` (`""` for the root): apply the filter for non-root paths (a rejection
abandons the subtree, line 91-93), record the stats (line 94), and for a
directory register a watch (lines 96-102) and recurse into every child
(lines 103-105). -/
def recurseTree (f : Option Filt) (w : Bool) (r : String) (t : FSNode) : RAcc :=
  match (if r = "" then Except.ok true else applyFilt f r t.statsOf) with
  | .error _ => ⟨[], [], true⟩
  | .ok false => ⟨[], [], false⟩
  | .ok true =>
    let own : List (String × Stats) := if r = "" then [] else [(r, t.statsOf)]
    match t with
    | .file _ => ⟨own, [], false⟩
    | .dir _ cs =>
      let ws : List String := if w then [r] else []
      let kids := recurseKids f w r cs
      ⟨own ++ kids.paths, ws ++ kids.watchers, kids.threw⟩

/-- The `Promise.all` over a directory's children (lines 103-105),
modelled sequentially in `readdir` order; a child's throw aborts the
remaining children. -/
def recurseKids (f : Option Filt) (w : Bool) (r : String) (cs : FSList) : RAcc :=
  match cs with
  | .nil => ⟨[], [], false⟩
  | .cons n c rest =>
    let rc := recurseTree f w (joinRel r n) c
    if rc.threw then ⟨rc.paths, rc.watchers, true⟩
    else
      let rr := recurseKids f w r rest
      ⟨rc.paths ++ rr.paths, rc.watchers ++ rr.watchers, rr.threw⟩
end

/-! ### Instance state and the Reconciler (`[_enqueue]`, lines 125-178) -/

/-- Construction configuration (lines 24-45); the debounce interval only
feeds `setTimeout` and is irrelevant to the reconciliation logic. -/
structure Cfg where
  dir : String
  filt : Option Filt
  watchEnabled : Bool
  debounce : Nat

/-- The mutable instance state. `paths` models the single `Map` object
stored in `this[_paths]`; `pathsExposed` records whether `this.paths` has
been assigned (line 69: `this.paths = this[_paths]`, the same object, not
a copy) — reading `this.paths` before that assignment is a `TypeError`. -/
structure WatchState where
  paths : List (String × Stats)
  watchers : List String
  timeouts : List (String × Nat)
  queue : List String
  isProcessing : Bool
  pathsExposed : Bool
  isInitStarted : Bool
  isClosed : Bool
deriving DecidableEq, Repr

/-- The state right after the constructor (lines 37-59). -/
def initialState : WatchState :=
  ⟨[], [], [], [], false, false, false, false⟩

/-- The public `paths` property: `undefined` (`none`) until line 69 runs,
then the Snapshot Table itself. -/
def publicPaths (s : WatchState) : Option (List (String × Stats)) :=
  if s.pathsExposed then some s.paths else none

/-- Fold a Recursor's Snapshot Table additions into the table
(`this[_paths].set(path, stats)`, line 94, in insertion order). -/
def mergePaths (m : List (String × Stats)) (adds : List (String × Stats)) :
    List (String × Stats) :=
  adds.foldl (fun acc kv => mapSet acc kv.1 kv.2) m

/-- Fold a Recursor's Watch Table additions into the table (line 98). -/
def mergeWatch (w : List String) (adds : List String) : List String :=
  adds.foldl watchSet w

/-- The guard `!this[_paths]` on line 127: `this[_paths]` is assigned a
`Map` in the constructor (line 49) and never reassigned, so this test is
`false` in every reachable state. -/
def internalPathsUnset (_s : WatchState) : Bool :=
  false

/-- Result of one step of the engine: the new state, the events emitted
(in order), and whether the step threw. -/
structure StepRes where
  state : WatchState
  events : List WEvent
  threw : Bool
deriving Repr

/-- One iteration of the drain loop (lines 132-175), for the already
popped absolute path `full`. Stat failure (line 134, `.catch(() => {})`)
is `statFS = none`. Reading `this.paths` (lines 139, 148, 154-157,
167-169) throws when `pathsExposed` is false. A filter throw (lines 136,
147 via `[_recurse]`) aborts the iteration, keeping prior mutations. -/
def processOne (cfg : Cfg) (fs : FSNode) (s : WatchState) (full : String) : StepRes :=
  let path := relOf cfg.dir full
  match statFS fs cfg.dir full with
  | some stats =>
    -- line 136: filter check (before any `this.paths` access)
    match applyFilt cfg.filt path stats with
    | .error _ => ⟨s, [], true⟩
    | .ok false => ⟨s, [], false⟩ -- line 137: continue
    | .ok true =>
      if s.pathsExposed then
        let isNew := !(mapHas s.paths path) -- line 139
        let paths1 := mapSet s.paths path stats -- line 140
        let evs1 := if path = "" then [] else [WEvent.plus path stats isNew] -- lines 141-143
        if stats.isDir && !(s.watchers.contains path) then -- line 144
          match findNode fs (segsOf path) with
          | none =>
            -- `statAsync` inside `[_recurse](full)` rejects: propagates (line 147)
            ⟨{ s with paths := paths1 }, evs1, true⟩
          | some node =>
            let r := recurseTree cfg.filt cfg.watchEnabled path node -- line 147
            let paths2 := mergePaths paths1 r.paths
            let watchers2 := mergeWatch s.watchers r.watchers
            if r.threw then ⟨{ s with paths := paths2, watchers := watchers2 }, evs1, true⟩
            else
              -- lines 148-152: synthetic creates for everything now nested under `path`
              let evs2 := (paths2.filter (fun kv => strStartsWith kv.1 (path ++ "/"))).map
                (fun kv => WEvent.plus kv.1 kv.2 true)
              ⟨{ s with paths := paths2, watchers := watchers2 }, evs1 ++ evs2, false⟩
        else ⟨{ s with paths := paths1 }, evs1, false⟩
      else ⟨s, [], true⟩ -- `this.paths.has` on `undefined`: TypeError
  | none =>
    if s.pathsExposed then
      match mapGet s.paths path with -- line 154 `has` + line 156 `get`
      | some oldStats =>
        let paths1 := mapDelete s.paths path -- line 157
        let ev1 := [WEvent.minus path oldStats] -- line 158
        if s.watchers.contains path then -- line 159
          -- lines 161-166: close and remove every watch at or under `path`
          let watchers2 := s.watchers.filter
            (fun old => !(old = path || strStartsWith old (path ++ "/")))
          -- lines 167-173: drop and report every entry nested under `path`
          let removed := paths1.filter (fun kv => strStartsWith kv.1 (path ++ "/"))
          let paths2 := paths1.filter (fun kv => !(strStartsWith kv.1 (path ++ "/")))
          ⟨{ s with paths := paths2, watchers := watchers2 },
            ev1 ++ removed.map (fun kv => WEvent.minus kv.1 kv.2), false⟩
        else ⟨{ s with paths := paths1 }, ev1, false⟩
      | none => ⟨s, [], false⟩ -- unknown path: nothing to do
    else ⟨s, [], true⟩ -- `this.paths.has` on `undefined`: TypeError

/-- The `while (this[_queue].length)` loop (lines 131-176), run over the
popped entries in FIFO order; on normal exit line 177 clears
`isProcessing`; a throw leaves it set. -/
def drainGo (cfg : Cfg) (fs : FSNode) (s : WatchState) : List String → StepRes
  | [] => ⟨{ s with isProcessing := false }, [], false⟩
  | full :: rest =>
    let r := processOne cfg fs { s with queue := rest } full
    if r.threw then r
    else
      let r2 := drainGo cfg fs r.state rest
      ⟨r2.state, r.events ++ r2.events, r2.threw⟩

/-- Drain the whole pending queue. -/
def drain (cfg : Cfg) (fs : FSNode) (s : WatchState) : StepRes :=
  drainGo cfg fs s s.queue

/-- `[_enqueue](full)` (lines 125-178): push onto the queue; return at
once when a drain is already running or when the always-false
`!this[_paths]` guard fires (line 127); otherwise set `isProcessing` and
drain. -/
def enqueue (cfg : Cfg) (fs : FSNode) (s : WatchState) (full : String) : StepRes :=
  let s1 := { s with queue := s.queue ++ [full] } -- line 126
  if s1.isProcessing || internalPathsUnset s1 then ⟨s1, [], false⟩ -- lines 127-129
  else drain cfg fs { s1 with isProcessing := true } -- lines 130-177

/-- A sequence of `[_enqueue]` calls (debounce timers firing one after
another), collecting all emitted events. -/
def enqueueAll (cfg : Cfg) (fs : FSNode) (s : WatchState) :
    List String → WatchState × List WEvent
  | [] => (s, [])
  | full :: rest =>
    let r := enqueue cfg fs s full
    let r2 := enqueueAll cfg fs r.state rest
    (r2.1, r.events ++ r2.2)

/-- `init()` (lines 63-70): fails when called twice; runs the Recursor
from the root; on success assigns `this.paths = this[_paths]` (the same
object). The second component is the `threw` flag. -/
def runInit (cfg : Cfg) (fs : FSNode) (s : WatchState) : WatchState × Bool :=
  if s.isInitStarted then (s, true) -- lines 64-66
  else
    let s1 := { s with isInitStarted := true } -- line 67
    let r := recurseTree cfg.filt cfg.watchEnabled "" fs -- line 68
    let s2 := { s1 with
      paths := mergePaths s1.paths r.paths,
      watchers := mergeWatch s1.watchers r.watchers }
    if r.threw then (s2, true)
    else ({ s2 with pathsExposed := true }, false) -- line 69

/-- `[_handle](dir, event, file)` (lines 110-122): debounce — replace any
pending timer for `dir + '/' + file` by a fresh one (the timer id is
abstract). -/
def handleEvent (s : WatchState) (dir file : String) (timerId : Nat) : WatchState :=
  let full := dir ++ "/" ++ file
  { s with timeouts :=
      (s.timeouts.filter (fun kv => kv.1 ≠ full)) ++ [(full, timerId)] }

/-- Expiry of the debounce timer for `full` (lines 117-120): drop the
timer and run `[_enqueue]`. -/
def fireTimeout (cfg : Cfg) (fs : FSNode) (s : WatchState) (full : String) : StepRes :=
  enqueue cfg fs { s with timeouts := s.timeouts.filter (fun kv => kv.1 ≠ full) } full

/-- `close()` (lines 73-84): fails before `init()` finishes or when
called twice; closes every watcher handle (handles are not modelled; the
Watch Table keys are deliberately not cleared by the source). -/
def closeWatch (s : WatchState) : WatchState × Bool :=
  if !s.pathsExposed then (s, true)
  else if s.isClosed then (s, true)
  else ({ s with isClosed := true }, false)

/-! ### Facts about the embedded string operations -/

theorem isPrefixOf_iff_exists (l1 l2 : List Char) :
    l1.isPrefixOf l2 = true ↔ ∃ t, l1 ++ t = l2 := by
  induction l1 generalizing l2 with
  | nil => simp [List.isPrefixOf]
  | cons a as ih =>
    cases l2 with
    | nil => simp [List.isPrefixOf]
    | cons b bs =>
      simp only [List.isPrefixOf, Bool.and_eq_true, beq_iff_eq, ih, List.cons_append,
        List.cons.injEq]
      constructor
      · rintro ⟨rfl, t, rfl⟩
        exact ⟨t, rfl, rfl⟩
      · rintro ⟨t, rfl, rfl⟩
        exact ⟨rfl, t, rfl⟩

theorem strStartsWith_iff (s p : String) :
    strStartsWith s p = true ↔ ∃ t, p.data ++ t = s.data :=
  isPrefixOf_iff_exists p.data s.data

theorem data_slash : ("/" : String).data = ['/'] := rfl

/-- `k` equals `p` or lies strictly under it (`k.startsWith(p + '/')`):
the combined test the teardown loops use (lines 149, 162, 167). -/
def eqOrUnder (k p : String) : Bool :=
  (k = p) || strStartsWith k (p ++ "/")

theorem eqOrUnder_iff (k p : String) :
    eqOrUnder k p = true ↔ k.data = p.data ∨ ∃ t, p.data ++ '/' :: t = k.data := by
  simp only [eqOrUnder, Bool.or_eq_true, decide_eq_true_eq, strStartsWith_iff,
    String.data_append, data_slash, String.ext_iff, List.append_assoc, List.singleton_append]

theorem startsWith_slash_ne {q p : String}
    (h : strStartsWith q (p ++ "/") = true) : q ≠ p := by
  rw [strStartsWith_iff] at h
  obtain ⟨t, ht⟩ := h
  intro he
  subst he
  have hl := congrArg List.length ht
  simp [String.data_append, data_slash] at hl

theorem startsWith_slash_ne_empty {q p : String}
    (h : strStartsWith q (p ++ "/") = true) : q ≠ "" := by
  rw [strStartsWith_iff] at h
  obtain ⟨t, ht⟩ := h
  intro he
  subst he
  simp [String.data_append, data_slash] at ht

theorem startsWith_slash_length {q p : String}
    (h : strStartsWith q (p ++ "/") = true) : p.data.length + 1 ≤ q.data.length := by
  rw [strStartsWith_iff] at h
  obtain ⟨t, ht⟩ := h
  rw [String.data_append, data_slash] at ht
  have hl := congrArg List.length ht
  simp only [List.length_append, List.length_cons, List.length_nil] at hl
  omega

/-- The characters of `joinRel p n`: `baseData p ++ n.data`. -/
def baseData (p : String) : List Char :=
  if p = "" then [] else p.data ++ ['/']

theorem joinRel_data (p n : String) :
    (joinRel p n).data = baseData p ++ n.data := by
  by_cases h : p = "" <;>
    simp [joinRel, baseData, h, String.data_append, data_slash]

theorem joinRel_ne_empty {p n : String} (hn : n ≠ "") : joinRel p n ≠ "" := by
  intro he
  have := congrArg String.data he
  rw [joinRel_data] at this
  simp [String.ext_iff] at hn
  rcases List.append_eq_nil.1 this with ⟨_, h2⟩
  exact hn h2

theorem eqOrUnder_joinRel_under (k r n : String) (hr : r ≠ "")
    (h : eqOrUnder k (joinRel r n) = true) : strStartsWith k (r ++ "/") = true := by
  rw [eqOrUnder_iff] at h
  rw [strStartsWith_iff]
  simp only [joinRel_data, baseData, if_neg hr, String.data_append, data_slash] at h ⊢
  rcases h with h | ⟨t, ht⟩
  · exact ⟨n.data, by simp [h, List.append_assoc]⟩
  · exact ⟨n.data ++ '/' :: t, by simp [← ht, List.append_assoc]⟩

/-- If `(base ++ nd) ++ u = (base ++ cd) ++ v` where `u` and `v` are
either empty or start with the separator, and neither name contains the
separator, then the two names agree: `/`-separated path segments line up. -/
theorem seg_tail_eq {base nd cd u v : List Char}
    (h : (base ++ nd) ++ u = (base ++ cd) ++ v)
    (hu : u = [] ∨ ∃ t, u = '/' :: t) (hv : v = [] ∨ ∃ t, v = '/' :: t)
    (hns : '/' ∉ nd) (hcs : '/' ∉ cd) : nd = cd := by
  rw [List.append_assoc, List.append_assoc] at h
  have h2 : nd ++ u = cd ++ v := List.append_cancel_left h
  rcases List.append_eq_append_iff.1 h2 with ⟨a, ha, hu2⟩ | ⟨a, ha, hv2⟩
  · cases a with
    | nil => rw [ha, List.append_nil]
    | cons x xs =>
      rcases hu with rfl | ⟨t, rfl⟩
      · simp at hu2
      · injection hu2 with h1 _
        exact absurd (ha ▸ List.mem_append_right nd (by rw [← h1]; simp)) hcs
  · cases a with
    | nil => rw [ha, List.append_nil]
    | cons x xs =>
      rcases hv with rfl | ⟨t, rfl⟩
      · simp at hv2
      · injection hv2 with h1 _
        exact absurd (ha ▸ List.mem_append_right cd (by rw [← h1]; simp)) hns

/-- Two distinct child names of the same directory generate disjoint path
cones: nothing at or under `joinRel r n` is at or under `joinRel r c`
when `n ≠ c`. -/
theorem eqOrUnder_sibling {r n c k p : String}
    (hncd : n ≠ c) (hns : '/' ∉ n.data) (hcs : '/' ∉ c.data)
    (hk : eqOrUnder k (joinRel r n) = true)
    (hp : eqOrUnder p (joinRel r c) = true) :
    eqOrUnder k p = false := by
  rw [Bool.eq_false_iff]
  intro hkp
  rw [eqOrUnder_iff, joinRel_data] at hk hp
  rw [eqOrUnder_iff] at hkp
  -- `k.data = (baseData r ++ n.data) ++ u` with `u` empty or starting `'/'`
  obtain ⟨u, hus, hku⟩ :
      ∃ u, (u = [] ∨ ∃ t, u = '/' :: t) ∧ (baseData r ++ n.data) ++ u = k.data := by
    rcases hk with h | ⟨t, ht⟩
    · exact ⟨[], Or.inl rfl, by simp [h.symm]⟩
    · exact ⟨'/' :: t, Or.inr ⟨t, rfl⟩, ht⟩
  -- and `k.data = (baseData r ++ c.data) ++ v` likewise, through `p`
  obtain ⟨v, hvs, hkv⟩ :
      ∃ v, (v = [] ∨ ∃ t, v = '/' :: t) ∧ (baseData r ++ c.data) ++ v = k.data := by
    rcases hp with h | ⟨t, ht⟩ <;> rcases hkp with h2 | ⟨t2, ht2⟩
    · exact ⟨[], Or.inl rfl, by rw [List.append_nil, ← h]; exact h2.symm⟩
    · exact ⟨'/' :: t2, Or.inr ⟨t2, rfl⟩, by rw [← ht2, h]⟩
    · exact ⟨'/' :: t, Or.inr ⟨t, rfl⟩, by rw [ht]; exact h2.symm⟩
    · exact ⟨'/' :: (t ++ '/' :: t2), Or.inr ⟨_, rfl⟩, by
        rw [← ht2, ← ht]; simp⟩
  exact hncd (String.ext (seg_tail_eq (hku.trans hkv.symm) hus hvs hns hcs))

/-! ### Facts about the association-list `Map` operations -/

theorem mapGet_set_self (m : List (String × Stats)) (k : String) (v : Stats) :
    mapGet (mapSet m k v) k = some v := by
  induction m with
  | nil => simp [mapSet, mapGet]
  | cons kv rest ih =>
    by_cases h : kv.1 = k <;> simp [mapSet, mapGet, h, ih]

theorem mapGet_set_ne (m : List (String × Stats)) (k : String) (v : Stats)
    (k2 : String) (h : k2 ≠ k) : mapGet (mapSet m k v) k2 = mapGet m k2 := by
  induction m with
  | nil => simp [mapSet, mapGet, Ne.symm h]
  | cons kv rest ih =>
    by_cases h1 : kv.1 = k <;> by_cases h2 : kv.1 = k2 <;>
      simp_all [mapSet, mapGet]

theorem mapGet_filterKey (P : String → Bool) (m : List (String × Stats)) (k : String) :
    mapGet (m.filter (fun kv => P kv.1)) k = if P k then mapGet m k else none := by
  induction m with
  | nil => simp [mapGet]
  | cons kv rest ih =>
    by_cases h1 : kv.1 = k
    · subst h1
      by_cases h2 : P kv.1 <;> simp [mapGet, List.filter_cons, h2, ih]
    · by_cases h2 : P kv.1 <;> simp [mapGet, List.filter_cons, h1, h2, ih]

theorem mapGet_delete (m : List (String × Stats)) (k k2 : String) :
    mapGet (mapDelete m k) k2 = if k2 = k then none else mapGet m k2 := by
  have h := mapGet_filterKey (fun x => decide (x ≠ k)) m k2
  simp only [mapDelete]
  rw [h]
  by_cases hk : k2 = k <;> simp [hk]

theorem mapHas_iff_get (m : List (String × Stats)) (k : String) :
    mapHas m k = true ↔ ∃ v, mapGet m k = some v := by
  simp [mapHas, Option.isSome_iff_exists]

/-- Last value stored for a key in an addition list: the one a left fold
of `Map.set` leaves in the table. -/
def lastVal : List (String × Stats) → String → Option Stats
  | [], _ => none
  | kv :: rest, k =>
    match lastVal rest k with
    | some v => some v
    | none => if kv.1 = k then some kv.2 else none

theorem mergePaths_get (m adds : List (String × Stats)) (k : String) :
    mapGet (mergePaths m adds) k =
      match lastVal adds k with
      | some v => some v
      | none => mapGet m k := by
  induction adds generalizing m with
  | nil => simp [mergePaths, lastVal]
  | cons kv rest ih =>
    show mapGet (mergePaths (mapSet m kv.1 kv.2) rest) k = _
    rw [ih]
    simp only [lastVal]
    cases hl : lastVal rest k with
    | some v => simp
    | none =>
      by_cases hk : kv.1 = k
      · subst hk
        simp [mapGet_set_self]
      · simp [hk, mapGet_set_ne m kv.1 kv.2 k (Ne.symm hk)]

theorem mergePaths_get_of_none (m adds : List (String × Stats)) (k : String)
    (h : ∀ kv ∈ adds, kv.1 ≠ k) : mapGet (mergePaths m adds) k = mapGet m k := by
  induction adds generalizing m with
  | nil => rfl
  | cons kv rest ih =>
    show mapGet (mergePaths (mapSet m kv.1 kv.2) rest) k = _
    rw [ih _ (fun kv2 h2 => h kv2 (List.mem_cons_of_mem _ h2)),
      mapGet_set_ne m kv.1 kv.2 k (Ne.symm (h kv (List.mem_cons_self _ _)))]

theorem mergePaths_has_mono (m adds : List (String × Stats)) (k : String)
    (h : mapHas m k = true) : mapHas (mergePaths m adds) k = true := by
  induction adds generalizing m with
  | nil => exact h
  | cons kv rest ih =>
    refine ih _ ?_
    by_cases hk : kv.1 = k
    · subst hk
      simp [mapHas, mapGet_set_self]
    · rw [mapHas, mapGet_set_ne m kv.1 kv.2 k (Ne.symm hk)]
      exact h

theorem mergePaths_has_of_mem (m adds : List (String × Stats)) (k : String)
    (v : Stats) (h : (k, v) ∈ adds) : mapHas (mergePaths m adds) k = true := by
  induction adds generalizing m with
  | nil => cases h
  | cons kv rest ih =>
    show mapHas (mergePaths (mapSet m kv.1 kv.2) rest) k = true
    rcases List.mem_cons.1 h with he | h2
    · have hk : kv.1 = k := by rw [← he]
      subst hk
      exact mergePaths_has_mono _ _ _ (by simp [mapHas, mapGet_set_self])
    · exact ih _ h2

theorem contains_iff_mem {α : Type} [BEq α] [LawfulBEq α] (w : List α) (k : α) :
    w.contains k = true ↔ k ∈ w := by
  rw [List.contains_iff_exists_mem_beq]
  constructor
  · rintro ⟨a, ha, hb⟩
    rwa [show k = a from by simpa using hb]
  · intro h
    exact ⟨k, h, by simp⟩

theorem mem_watchSet (w : List String) (a k : String) :
    k ∈ watchSet w a ↔ k ∈ w ∨ k = a := by
  unfold watchSet
  by_cases h : a ∈ w
  · rw [if_pos ((contains_iff_mem w a).2 h)]
    constructor
    · exact Or.inl
    · rintro (hk | rfl)
      · exact hk
      · exact h
  · rw [if_neg (fun hc => h ((contains_iff_mem w a).1 hc))]
    simp

theorem mem_mergeWatch (w adds : List String) (k : String) :
    k ∈ mergeWatch w adds ↔ k ∈ w ∨ k ∈ adds := by
  induction adds generalizing w with
  | nil => simp [mergeWatch]
  | cons a rest ih =>
    show k ∈ mergeWatch (watchSet w a) rest ↔ _
    rw [ih, mem_watchSet]
    simp only [List.mem_cons]
    tauto

/-! ### Structure of what the Recursor produces -/

theorem recurseTree_root (f : Option Filt) (w : Bool) (t : FSNode) :
    recurseTree f w "" t =
      match t with
      | .file _ => ⟨[], [], false⟩
      | .dir _ cs =>
        ⟨(recurseKids f w "" cs).paths,
          (if w then [""] else []) ++ (recurseKids f w "" cs).watchers,
          (recurseKids f w "" cs).threw⟩ := by
  cases t <;> simp [recurseTree]

theorem recurseTree_err (f : Option Filt) (w : Bool) (r : String) (t : FSNode)
    (e : Unit) (hr : r ≠ "") (hfil : applyFilt f r t.statsOf = .error e) :
    recurseTree f w r t = ⟨[], [], true⟩ := by
  cases t <;> simp [recurseTree, if_neg hr, hfil]

theorem recurseTree_reject (f : Option Filt) (w : Bool) (r : String) (t : FSNode)
    (hr : r ≠ "") (hfil : applyFilt f r t.statsOf = .ok false) :
    recurseTree f w r t = ⟨[], [], false⟩ := by
  cases t <;> simp [recurseTree, if_neg hr, hfil]

theorem recurseTree_accept_file (f : Option Filt) (w : Bool) (r : String) (tag : Nat)
    (hr : r ≠ "") (hfil : applyFilt f r (FSNode.file tag).statsOf = .ok true) :
    recurseTree f w r (FSNode.file tag) = ⟨[(r, ⟨false, tag⟩)], [], false⟩ := by
  have hfil2 : applyFilt f r ⟨false, tag⟩ = .ok true := hfil
  simp [recurseTree, if_neg hr, hfil2, FSNode.statsOf]

theorem recurseTree_accept_dir (f : Option Filt) (w : Bool) (r : String) (tag : Nat)
    (cs : FSList) (hr : r ≠ "") (hfil : applyFilt f r (FSNode.dir tag cs).statsOf = .ok true) :
    recurseTree f w r (FSNode.dir tag cs) =
      ⟨(r, ⟨true, tag⟩) :: (recurseKids f w r cs).paths,
        (if w then [r] else []) ++ (recurseKids f w r cs).watchers,
        (recurseKids f w r cs).threw⟩ := by
  have hfil2 : applyFilt f r ⟨true, tag⟩ = .ok true := hfil
  simp [recurseTree, if_neg hr, hfil2, FSNode.statsOf]

theorem joinRel_ne_empty_left {r : String} (n : String) (hr : r ≠ "") :
    joinRel r n ≠ "" := by
  intro he
  have := congrArg String.data he
  rw [joinRel_data] at this
  simp only [baseData, if_neg hr] at this
  simp [String.ext_iff] at hr
  rcases List.append_eq_nil.1 this with ⟨h1, _⟩
  rcases List.append_eq_nil.1 h1 with ⟨h2, _⟩
  exact hr h2

mutual
theorem recurseTree_paths_shape (f : Option Filt) (w : Bool) (r : String) (t : FSNode)
    (hr : r ≠ "") :
    ∀ kv ∈ (recurseTree f w r t).paths,
      (kv.1 = r ∧ kv.2 = t.statsOf) ∨ strStartsWith kv.1 (r ++ "/") = true := by
  intro kv hkv
  cases hfil : applyFilt f r t.statsOf with
  | error e =>
    rw [recurseTree_err f w r t e hr hfil] at hkv
    cases hkv
  | ok b =>
    cases b with
    | false =>
      rw [recurseTree_reject f w r t hr hfil] at hkv
      cases hkv
    | true =>
      cases t with
      | file tag =>
        rw [recurseTree_accept_file f w r tag hr hfil] at hkv
        rcases List.mem_singleton.1 hkv with rfl
        exact Or.inl ⟨rfl, rfl⟩
      | dir tag cs =>
        rw [recurseTree_accept_dir f w r tag cs hr hfil] at hkv
        rcases List.mem_cons.1 hkv with rfl | h2
        · exact Or.inl ⟨rfl, rfl⟩
        · exact Or.inr (recurseKids_paths_shape f w r cs hr kv h2)

theorem recurseKids_paths_shape (f : Option Filt) (w : Bool) (r : String) (cs : FSList)
    (hr : r ≠ "") :
    ∀ kv ∈ (recurseKids f w r cs).paths, strStartsWith kv.1 (r ++ "/") = true := by
  intro kv hkv
  cases cs with
  | nil => cases hkv
  | cons n c rest =>
    have hj : joinRel r n ≠ "" := joinRel_ne_empty_left n hr
    unfold recurseKids at hkv
    by_cases ht : (recurseTree f w (joinRel r n) c).threw = true
    · rw [if_pos ht] at hkv
      rcases recurseTree_paths_shape f w (joinRel r n) c hj kv hkv with ⟨h1, _⟩ | h1
      · exact eqOrUnder_joinRel_under kv.1 r n hr (by simp [eqOrUnder, h1])
      · exact eqOrUnder_joinRel_under kv.1 r n hr (by simp [eqOrUnder, h1])
    · rw [if_neg ht] at hkv
      rcases List.mem_append.1 hkv with h2 | h2
      · rcases recurseTree_paths_shape f w (joinRel r n) c hj kv h2 with ⟨h1, _⟩ | h1
        · exact eqOrUnder_joinRel_under kv.1 r n hr (by simp [eqOrUnder, h1])
        · exact eqOrUnder_joinRel_under kv.1 r n hr (by simp [eqOrUnder, h1])
      · exact recurseKids_paths_shape f w r rest hr kv h2
end

mutual
theorem recurseTree_watchers_shape (f : Option Filt) (w : Bool) (r : String) (t : FSNode)
    (hr : r ≠ "") :
    ∀ k ∈ (recurseTree f w r t).watchers,
      k = r ∨ strStartsWith k (r ++ "/") = true := by
  intro k hk
  cases hfil : applyFilt f r t.statsOf with
  | error e =>
    rw [recurseTree_err f w r t e hr hfil] at hk
    cases hk
  | ok b =>
    cases b with
    | false =>
      rw [recurseTree_reject f w r t hr hfil] at hk
      cases hk
    | true =>
      cases t with
      | file tag =>
        rw [recurseTree_accept_file f w r tag hr hfil] at hk
        cases hk
      | dir tag cs =>
        rw [recurseTree_accept_dir f w r tag cs hr hfil] at hk
        rcases List.mem_append.1 hk with h2 | h2
        · cases w with
          | false => cases h2
          | true =>
            rcases List.mem_singleton.1 (by simpa using h2) with rfl
            exact Or.inl rfl
        · exact Or.inr (recurseKids_watchers_shape f w r cs hr k h2)

theorem recurseKids_watchers_shape (f : Option Filt) (w : Bool) (r : String) (cs : FSList)
    (hr : r ≠ "") :
    ∀ k ∈ (recurseKids f w r cs).watchers, strStartsWith k (r ++ "/") = true := by
  intro k hk
  cases cs with
  | nil => cases hk
  | cons n c rest =>
    have hj : joinRel r n ≠ "" := joinRel_ne_empty_left n hr
    unfold recurseKids at hk
    by_cases ht : (recurseTree f w (joinRel r n) c).threw = true
    · rw [if_pos ht] at hk
      rcases recurseTree_watchers_shape f w (joinRel r n) c hj k hk with h1 | h1
      · exact eqOrUnder_joinRel_under k r n hr (by simp [eqOrUnder, h1])
      · exact eqOrUnder_joinRel_under k r n hr (by simp [eqOrUnder, h1])
    · rw [if_neg ht] at hk
      rcases List.mem_append.1 hk with h2 | h2
      · rcases recurseTree_watchers_shape f w (joinRel r n) c hj k h2 with h1 | h1
        · exact eqOrUnder_joinRel_under k r n hr (by simp [eqOrUnder, h1])
        · exact eqOrUnder_joinRel_under k r n hr (by simp [eqOrUnder, h1])
      · exact recurseKids_watchers_shape f w r rest hr k h2
end

/-! ### The branches of one drain-loop iteration -/

theorem processOne_filterThrow (cfg : Cfg) (fs : FSNode) (s : WatchState) (full : String)
    (stats : Stats) (e : Unit)
    (hstat : statFS fs cfg.dir full = some stats)
    (hfil : applyFilt cfg.filt (relOf cfg.dir full) stats = .error e) :
    processOne cfg fs s full = ⟨s, [], true⟩ := by
  simp [processOne, hstat, hfil]

theorem processOne_filterReject (cfg : Cfg) (fs : FSNode) (s : WatchState) (full : String)
    (stats : Stats)
    (hstat : statFS fs cfg.dir full = some stats)
    (hfil : applyFilt cfg.filt (relOf cfg.dir full) stats = .ok false) :
    processOne cfg fs s full = ⟨s, [], false⟩ := by
  simp [processOne, hstat, hfil]

theorem processOne_ok_plain (cfg : Cfg) (fs : FSNode) (s : WatchState) (full : String)
    (stats : Stats)
    (hstat : statFS fs cfg.dir full = some stats)
    (hfil : applyFilt cfg.filt (relOf cfg.dir full) stats = .ok true)
    (hexp : s.pathsExposed = true)
    (hcond : (stats.isDir && !(s.watchers.contains (relOf cfg.dir full))) = false) :
    processOne cfg fs s full =
      ⟨{ s with paths := mapSet s.paths (relOf cfg.dir full) stats },
        (if relOf cfg.dir full = "" then []
          else [WEvent.plus (relOf cfg.dir full) stats (!(mapHas s.paths (relOf cfg.dir full)))]),
        false⟩ := by
  cases hdir : stats.isDir with
  | false => simp [processOne, hstat, hfil, hexp, hdir]
  | true =>
    have hw : s.watchers.contains (relOf cfg.dir full) = true := by
      cases hw2 : s.watchers.contains (relOf cfg.dir full)
      · rw [hdir, hw2] at hcond
        simp at hcond
      · rfl
    have hmem : relOf cfg.dir full ∈ s.watchers := (contains_iff_mem _ _).1 hw
    simp [processOne, hstat, hfil, hexp, hdir, hmem]

theorem processOne_ok_dirnew (cfg : Cfg) (fs : FSNode) (s : WatchState) (full : String)
    (stats : Stats) (node : FSNode)
    (hstat : statFS fs cfg.dir full = some stats)
    (hfil : applyFilt cfg.filt (relOf cfg.dir full) stats = .ok true)
    (hexp : s.pathsExposed = true)
    (hdir : stats.isDir = true)
    (hw : s.watchers.contains (relOf cfg.dir full) = false)
    (hfind : findNode fs (segsOf (relOf cfg.dir full)) = some node)
    (hnothrow : (recurseTree cfg.filt cfg.watchEnabled (relOf cfg.dir full) node).threw = false) :
    processOne cfg fs s full =
      ⟨{ s with
          paths := mergePaths (mapSet s.paths (relOf cfg.dir full) stats)
            (recurseTree cfg.filt cfg.watchEnabled (relOf cfg.dir full) node).paths,
          watchers := mergeWatch s.watchers
            (recurseTree cfg.filt cfg.watchEnabled (relOf cfg.dir full) node).watchers },
        (if relOf cfg.dir full = "" then []
          else [WEvent.plus (relOf cfg.dir full) stats (!(mapHas s.paths (relOf cfg.dir full)))]) ++
          ((mergePaths (mapSet s.paths (relOf cfg.dir full) stats)
              (recurseTree cfg.filt cfg.watchEnabled (relOf cfg.dir full) node).paths).filter
            (fun kv => strStartsWith kv.1 (relOf cfg.dir full ++ "/"))).map
            (fun kv => WEvent.plus kv.1 kv.2 true),
        false⟩ := by
  have hnmem : relOf cfg.dir full ∉ s.watchers := fun h => by
    rw [(contains_iff_mem _ _).2 h] at hw
    cases hw
  simp [processOne, hstat, hfil, hexp, hdir, hnmem, hfind, hnothrow]

theorem processOne_ok_dirnofind (cfg : Cfg) (fs : FSNode) (s : WatchState) (full : String)
    (stats : Stats)
    (hstat : statFS fs cfg.dir full = some stats)
    (hfil : applyFilt cfg.filt (relOf cfg.dir full) stats = .ok true)
    (hexp : s.pathsExposed = true)
    (hdir : stats.isDir = true)
    (hw : s.watchers.contains (relOf cfg.dir full) = false)
    (hfind : findNode fs (segsOf (relOf cfg.dir full)) = none) :
    processOne cfg fs s full =
      ⟨{ s with paths := mapSet s.paths (relOf cfg.dir full) stats },
        (if relOf cfg.dir full = "" then []
          else [WEvent.plus (relOf cfg.dir full) stats (!(mapHas s.paths (relOf cfg.dir full)))]),
        true⟩ := by
  have hnmem : relOf cfg.dir full ∉ s.watchers := fun h => by
    rw [(contains_iff_mem _ _).2 h] at hw
    cases hw
  simp [processOne, hstat, hfil, hexp, hdir, hnmem, hfind]

theorem processOne_ok_dirthrow (cfg : Cfg) (fs : FSNode) (s : WatchState) (full : String)
    (stats : Stats) (node : FSNode)
    (hstat : statFS fs cfg.dir full = some stats)
    (hfil : applyFilt cfg.filt (relOf cfg.dir full) stats = .ok true)
    (hexp : s.pathsExposed = true)
    (hdir : stats.isDir = true)
    (hw : s.watchers.contains (relOf cfg.dir full) = false)
    (hfind : findNode fs (segsOf (relOf cfg.dir full)) = some node)
    (hthrow : (recurseTree cfg.filt cfg.watchEnabled (relOf cfg.dir full) node).threw = true) :
    processOne cfg fs s full =
      ⟨{ s with
          paths := mergePaths (mapSet s.paths (relOf cfg.dir full) stats)
            (recurseTree cfg.filt cfg.watchEnabled (relOf cfg.dir full) node).paths,
          watchers := mergeWatch s.watchers
            (recurseTree cfg.filt cfg.watchEnabled (relOf cfg.dir full) node).watchers },
        (if relOf cfg.dir full = "" then []
          else [WEvent.plus (relOf cfg.dir full) stats (!(mapHas s.paths (relOf cfg.dir full)))]),
        true⟩ := by
  have hnmem : relOf cfg.dir full ∉ s.watchers := fun h => by
    rw [(contains_iff_mem _ _).2 h] at hw
    cases hw
  simp [processOne, hstat, hfil, hexp, hdir, hnmem, hfind, hthrow]

theorem processOne_ok_preInit (cfg : Cfg) (fs : FSNode) (s : WatchState) (full : String)
    (stats : Stats)
    (hstat : statFS fs cfg.dir full = some stats)
    (hfil : applyFilt cfg.filt (relOf cfg.dir full) stats = .ok true)
    (hexp : s.pathsExposed = false) :
    processOne cfg fs s full = ⟨s, [], true⟩ := by
  simp [processOne, hstat, hfil, hexp]

theorem processOne_del_preInit (cfg : Cfg) (fs : FSNode) (s : WatchState) (full : String)
    (hstat : statFS fs cfg.dir full = none)
    (hexp : s.pathsExposed = false) :
    processOne cfg fs s full = ⟨s, [], true⟩ := by
  simp [processOne, hstat, hexp]

theorem processOne_del_unknown (cfg : Cfg) (fs : FSNode) (s : WatchState) (full : String)
    (hstat : statFS fs cfg.dir full = none)
    (hexp : s.pathsExposed = true)
    (hget : mapGet s.paths (relOf cfg.dir full) = none) :
    processOne cfg fs s full = ⟨s, [], false⟩ := by
  simp [processOne, hstat, hexp, hget]

theorem processOne_del_plain (cfg : Cfg) (fs : FSNode) (s : WatchState) (full : String)
    (st : Stats)
    (hstat : statFS fs cfg.dir full = none)
    (hexp : s.pathsExposed = true)
    (hget : mapGet s.paths (relOf cfg.dir full) = some st)
    (hw : s.watchers.contains (relOf cfg.dir full) = false) :
    processOne cfg fs s full =
      ⟨{ s with paths := mapDelete s.paths (relOf cfg.dir full) },
        [WEvent.minus (relOf cfg.dir full) st], false⟩ := by
  have hnmem : relOf cfg.dir full ∉ s.watchers := fun h => by
    rw [(contains_iff_mem _ _).2 h] at hw
    cases hw
  simp [processOne, hstat, hexp, hget, hnmem]

theorem processOne_del_cascade (cfg : Cfg) (fs : FSNode) (s : WatchState) (full : String)
    (st : Stats)
    (hstat : statFS fs cfg.dir full = none)
    (hexp : s.pathsExposed = true)
    (hget : mapGet s.paths (relOf cfg.dir full) = some st)
    (hw : s.watchers.contains (relOf cfg.dir full) = true) :
    processOne cfg fs s full =
      ⟨{ s with
          paths := (mapDelete s.paths (relOf cfg.dir full)).filter
            (fun kv => !(strStartsWith kv.1 (relOf cfg.dir full ++ "/"))),
          watchers := s.watchers.filter
            (fun old => !(old = relOf cfg.dir full ||
              strStartsWith old (relOf cfg.dir full ++ "/"))) },
        WEvent.minus (relOf cfg.dir full) st ::
          ((mapDelete s.paths (relOf cfg.dir full)).filter
            (fun kv => strStartsWith kv.1 (relOf cfg.dir full ++ "/"))).map
            (fun kv => WEvent.minus kv.1 kv.2),
        false⟩ := by
  have hmem : relOf cfg.dir full ∈ s.watchers := (contains_iff_mem _ _).1 hw
  simp [processOne, hstat, hexp, hget, hmem]

/-! ### Frame facts: fields one drain iteration never touches -/

theorem processOne_queue (cfg : Cfg) (fs : FSNode) (s : WatchState) (full : String) :
    (processOne cfg fs s full).state.queue = s.queue := by
  unfold processOne
  dsimp only
  repeat' split
  all_goals rfl

theorem processOne_isProcessing (cfg : Cfg) (fs : FSNode) (s : WatchState) (full : String) :
    (processOne cfg fs s full).state.isProcessing = s.isProcessing := by
  unfold processOne
  dsimp only
  repeat' split
  all_goals rfl

theorem processOne_pathsExposed (cfg : Cfg) (fs : FSNode) (s : WatchState) (full : String) :
    (processOne cfg fs s full).state.pathsExposed = s.pathsExposed := by
  unfold processOne
  dsimp only
  repeat' split
  all_goals rfl

theorem processOne_timeouts (cfg : Cfg) (fs : FSNode) (s : WatchState) (full : String) :
    (processOne cfg fs s full).state.timeouts = s.timeouts := by
  unfold processOne
  dsimp only
  repeat' split
  all_goals rfl

theorem drainGo_nil (cfg : Cfg) (fs : FSNode) (s : WatchState) :
    drainGo cfg fs s [] = ⟨{ s with isProcessing := false }, [], false⟩ :=
  rfl

theorem drainGo_cons (cfg : Cfg) (fs : FSNode) (s : WatchState) (full : String)
    (rest : List String) :
    drainGo cfg fs s (full :: rest) =
      if (processOne cfg fs { s with queue := rest } full).threw = true
      then processOne cfg fs { s with queue := rest } full
      else
        ⟨(drainGo cfg fs (processOne cfg fs { s with queue := rest } full).state rest).state,
          (processOne cfg fs { s with queue := rest } full).events ++
            (drainGo cfg fs (processOne cfg fs { s with queue := rest } full).state rest).events,
          (drainGo cfg fs (processOne cfg fs { s with queue := rest } full).state rest).threw⟩ :=
  rfl

theorem drainGo_pathsExposed (cfg : Cfg) (fs : FSNode) (l : List String) :
    ∀ s : WatchState, (drainGo cfg fs s l).state.pathsExposed = s.pathsExposed := by
  induction l with
  | nil => intro s; rfl
  | cons full rest ih =>
    intro s
    show (let r := processOne cfg fs { s with queue := rest } full
      if r.threw = true then r
      else
        let r2 := drainGo cfg fs r.state rest
        ⟨r2.state, r.events ++ r2.events, r2.threw⟩).state.pathsExposed = _
    by_cases ht : (processOne cfg fs { s with queue := rest } full).threw = true
    · rw [if_pos ht]
      exact processOne_pathsExposed cfg fs { s with queue := rest } full
    · rw [if_neg ht]
      show (drainGo cfg fs (processOne cfg fs { s with queue := rest } full).state rest).state.pathsExposed = _
      rw [ih]
      exact processOne_pathsExposed cfg fs { s with queue := rest } full

theorem drainGo_stuck (cfg : Cfg) (fs : FSNode) (l : List String) :
    ∀ s : WatchState, (drainGo cfg fs s l).threw = true →
      (drainGo cfg fs s l).state.isProcessing = s.isProcessing := by
  induction l with
  | nil => intro s h; cases h
  | cons full rest ih =>
    intro s h
    show (let r := processOne cfg fs { s with queue := rest } full
      if r.threw = true then r
      else
        let r2 := drainGo cfg fs r.state rest
        ⟨r2.state, r.events ++ r2.events, r2.threw⟩).state.isProcessing = _
    by_cases ht : (processOne cfg fs { s with queue := rest } full).threw = true
    · rw [if_pos ht]
      exact processOne_isProcessing cfg fs { s with queue := rest } full
    · rw [if_neg ht]
      have h2 : (drainGo cfg fs (processOne cfg fs { s with queue := rest } full).state rest).threw = true := by
        revert h
        show (let r := processOne cfg fs { s with queue := rest } full
          if r.threw = true then r
          else
            let r2 := drainGo cfg fs r.state rest
            ⟨r2.state, r.events ++ r2.events, r2.threw⟩).threw = true → _
        rw [if_neg ht]
        exact id
      show (drainGo cfg fs (processOne cfg fs { s with queue := rest } full).state rest).state.isProcessing = _
      rw [ih _ h2]
      exact processOne_isProcessing cfg fs { s with queue := rest } full

theorem enqueue_busy (cfg : Cfg) (fs : FSNode) (s : WatchState) (full : String)
    (h : s.isProcessing = true) :
    enqueue cfg fs s full = ⟨{ s with queue := s.queue ++ [full] }, [], false⟩ := by
  simp [enqueue, internalPathsUnset, h]

theorem enqueue_idle (cfg : Cfg) (fs : FSNode) (s : WatchState) (full : String)
    (h : s.isProcessing = false) :
    enqueue cfg fs s full =
      drain cfg fs { s with queue := s.queue ++ [full], isProcessing := true } := by
  simp [enqueue, internalPathsUnset, h]

theorem enqueueAll_busy (cfg : Cfg) (fs : FSNode) (l : List String) :
    ∀ s : WatchState, s.isProcessing = true →
      enqueueAll cfg fs s l = ({ s with queue := s.queue ++ l }, []) := by
  induction l with
  | nil =>
    intro s h
    show (s, ([] : List WEvent)) = _
    simp
  | cons f l2 ih =>
    intro s h
    show (let r := enqueue cfg fs s f
      let r2 := enqueueAll cfg fs r.state l2
      (r2.1, r.events ++ r2.2)) = _
    rw [enqueue_busy cfg fs s f h]
    show ((enqueueAll cfg fs { s with queue := s.queue ++ [f] } l2).1,
      [] ++ (enqueueAll cfg fs { s with queue := s.queue ++ [f] } l2).2) = _
    rw [ih { s with queue := s.queue ++ [f] } h]
    simp

theorem runInit_exposes (cfg : Cfg) (fs : FSNode) (s : WatchState)
    (h : s.isInitStarted = false) (h2 : (runInit cfg fs s).2 = false) :
    (runInit cfg fs s).1.pathsExposed = true := by
  unfold runInit at h2 ⊢
  rw [if_neg (by rw [h]; exact Bool.false_ne_true)] at h2 ⊢
  by_cases ht : (recurseTree cfg.filt cfg.watchEnabled "" fs).threw = true
  · rw [if_pos ht] at h2
    cases h2
  · rw [if_neg ht]

/-! ### Concrete instances used to witness the claim theorems -/

/-- Root `"root"`, no filter, watching enabled, default debounce. -/
def cfgNoF : Cfg :=
  ⟨"root", none, true, 10⟩

/-- A filter rejecting exactly the relative path `"skip"`. -/
def cfgRej : Cfg :=
  ⟨"root", some (fun p _ => if p = "skip" then .ok false else .ok true), true, 10⟩

/-- A filter that always throws. -/
def cfgThrow : Cfg :=
  ⟨"root", some (fun _ _ => .error ()), true, 10⟩

/-- Root containing a file `a` and a directory `b` holding a file `c`. -/
def fsA : FSNode :=
  .dir 0 (.cons "a" (.file 1) (.cons "b" (.dir 2 (.cons "c" (.file 3) .nil)) .nil))

/-- An emptied root directory. -/
def fsEmpty : FSNode :=
  .dir 0 .nil

/-- Root containing just the file `skip`. -/
def fsSkip : FSNode :=
  .dir 0 (.cons "skip" (.file 1) .nil)

/-- The state after a successful `init()` of `cfgNoF` over `fsA`. -/
def stA : WatchState :=
  (runInit cfgNoF fsA initialState).1

/-! ### The claims -/

/-- C8: for every drained path whose stat succeeds but that the filter
rejects, the Reconciler skips the entry: no event is emitted, no error is
raised, and the Snapshot Table, Watch Table and Debounce Timers are left
unchanged (a previously tracked entry for that path stays in place). -/
theorem c8_filter_reject_skips (cfg : Cfg) (fs : FSNode) (s : WatchState) (full : String)
    (stats : Stats)
    (hstat : statFS fs cfg.dir full = some stats)
    (hfil : applyFilt cfg.filt (relOf cfg.dir full) stats = .ok false) :
    (processOne cfg fs s full).events = [] ∧
    (processOne cfg fs s full).state.paths = s.paths ∧
    (processOne cfg fs s full).state.watchers = s.watchers ∧
    (processOne cfg fs s full).state.timeouts = s.timeouts ∧
    (processOne cfg fs s full).threw = false := by
  rw [processOne_filterReject cfg fs s full stats hstat hfil]
  exact ⟨rfl, rfl, rfl, rfl, rfl⟩

/-- Witness for C8: a tracked `skip` file stops matching the filter; the
drain iteration for it changes nothing and emits nothing. -/
theorem c8_witness :
    (processOne cfgRej fsSkip
      ⟨[("skip", ⟨false, 1⟩)], [""], [], [], true, true, true, false⟩ "root/skip").events = [] ∧
    (processOne cfgRej fsSkip
      ⟨[("skip", ⟨false, 1⟩)], [""], [], [], true, true, true, false⟩ "root/skip").state.paths =
      [("skip", ⟨false, 1⟩)] ∧
    (processOne cfgRej fsSkip
      ⟨[("skip", ⟨false, 1⟩)], [""], [], [], true, true, true, false⟩ "root/skip").state.watchers =
      [""] ∧
    (processOne cfgRej fsSkip
      ⟨[("skip", ⟨false, 1⟩)], [""], [], [], true, true, true, false⟩ "root/skip").state.timeouts =
      [] ∧
    (processOne cfgRej fsSkip
      ⟨[("skip", ⟨false, 1⟩)], [""], [], [], true, true, true, false⟩ "root/skip").threw = false :=
  c8_filter_reject_skips cfgRej fsSkip _ "root/skip" ⟨false, 1⟩ (by decide) rfl

/-- An exposed state holding only the file `a`, with only the root
watched: the directory `b` of `fsA` is not yet known to it. -/
def stNoB : WatchState :=
  ⟨[("a", ⟨false, 1⟩)], [""], [], [], true, true, true, false⟩

/-- C2: for a drained path whose stat fails and that is a known directory
(watched, or with a watched path nested under it — which, by the Watch
Table invariants carried as hypotheses, forces it to be watched and
snapshotted itself), the Reconciler removes every watch at or under the
path, removes every Snapshot Table entry at or under it, and emits the
path's own delete event first followed by one delete event per removed
descendant entry (in table order). -/
theorem c2_directory_delete_cascade (cfg : Cfg) (fs : FSNode) (s : WatchState) (full : String)
    (hexp : s.pathsExposed = true)
    (hstat : statFS fs cfg.dir full = none)
    (hroot : relOf cfg.dir full ≠ "")
    (hwsub : ∀ q ∈ s.watchers, q ≠ "" → mapHas s.paths q = true)
    (hwclosed : ∀ q ∈ s.watchers, ∀ p : String, strStartsWith q (p ++ "/") = true →
      p = "" ∨ p ∈ s.watchers)
    (hknown : relOf cfg.dir full ∈ s.watchers ∨
      ∃ q ∈ s.watchers, strStartsWith q (relOf cfg.dir full ++ "/") = true) :
    (∀ k, k ∈ (processOne cfg fs s full).state.watchers ↔
      (k ∈ s.watchers ∧ k ≠ relOf cfg.dir full ∧
        strStartsWith k (relOf cfg.dir full ++ "/") = false)) ∧
    (∀ q, mapHas (processOne cfg fs s full).state.paths q = true ↔
      (mapHas s.paths q = true ∧ q ≠ relOf cfg.dir full ∧
        strStartsWith q (relOf cfg.dir full ++ "/") = false)) ∧
    (∃ st, mapGet s.paths (relOf cfg.dir full) = some st ∧
      (processOne cfg fs s full).events =
        WEvent.minus (relOf cfg.dir full) st ::
          ((mapDelete s.paths (relOf cfg.dir full)).filter
            (fun kv => strStartsWith kv.1 (relOf cfg.dir full ++ "/"))).map
            (fun kv => WEvent.minus kv.1 kv.2)) := by
  have hwmem : relOf cfg.dir full ∈ s.watchers := by
    rcases hknown with h | ⟨q, hq, hsq⟩
    · exact h
    · rcases hwclosed q hq (relOf cfg.dir full) hsq with h | h
      · exact absurd h hroot
      · exact h
  have hhas := hwsub _ hwmem hroot
  rcases (mapHas_iff_get _ _).1 hhas with ⟨st, hget⟩
  have hw : s.watchers.contains (relOf cfg.dir full) = true := (contains_iff_mem _ _).2 hwmem
  rw [processOne_del_cascade cfg fs s full st hstat hexp hget hw]
  refine ⟨?_, ?_, st, hget, rfl⟩
  · intro k
    constructor
    · intro hk
      obtain ⟨hmem2, hcond2⟩ := List.mem_filter.1 hk
      have h3 : ¬(k = relOf cfg.dir full) ∧
          strStartsWith k (relOf cfg.dir full ++ "/") = false := by
        simpa using hcond2
      exact ⟨hmem2, h3.1, h3.2⟩
    · rintro ⟨hmem2, hne, hns⟩
      refine List.mem_filter.2 ⟨hmem2, ?_⟩
      simp [hne, hns]
  · intro q
    show mapHas ((mapDelete s.paths (relOf cfg.dir full)).filter
      (fun kv => !(strStartsWith kv.1 (relOf cfg.dir full ++ "/")))) q = true ↔ _
    rw [mapHas, mapGet_filterKey (fun x => !(strStartsWith x (relOf cfg.dir full ++ "/")))]
    cases hns : strStartsWith q (relOf cfg.dir full ++ "/") with
    | true => simp [hns]
    | false =>
      by_cases hqp : q = relOf cfg.dir full
      · simp [hns, mapGet_delete, hqp]
      · simp [hns, mapGet_delete, hqp, mapHas]

/-- Witness for C2: deleting the watched directory `b` tears down its
watch, drops `b` and `b/c` from the snapshot, keeps `a`, and emits the
delete for `b` first, then for `b/c`. -/
theorem c2_witness :
    "b" ∉ (processOne cfgNoF fsEmpty stA "root/b").state.watchers ∧
    mapHas (processOne cfgNoF fsEmpty stA "root/b").state.paths "b/c" = false ∧
    mapHas (processOne cfgNoF fsEmpty stA "root/b").state.paths "a" = true ∧
    (processOne cfgNoF fsEmpty stA "root/b").events =
      [WEvent.minus "b" ⟨true, 2⟩, WEvent.minus "b/c" ⟨false, 3⟩] := by
  have hwclosed : ∀ q ∈ stA.watchers, ∀ p : String,
      strStartsWith q (p ++ "/") = true → p = "" ∨ p ∈ stA.watchers := by
    intro q hq p hs
    have hl := startsWith_slash_length hs
    have hq2 : q = "" ∨ q = "b" := by
      have : stA.watchers = ["", "b"] := by decide
      rw [this] at hq
      simpa using hq
    left
    rcases hq2 with rfl | rfl
    · simp at hl
    · have hp : p.data.length = 0 := by
        have : ("b" : String).data.length = 1 := by decide
        omega
      exact String.ext (List.length_eq_zero.1 hp)
  have h := c2_directory_delete_cascade cfgNoF fsEmpty stA "root/b" (by decide) (by decide)
    (by decide) (by decide) hwclosed (Or.inl (by decide))
  have hrel : relOf cfgNoF.dir "root/b" = "b" := by decide
  rw [hrel] at h
  refine ⟨?_, ?_, ?_, ?_⟩
  · intro hmem
    exact ((h.1 "b").1 hmem).2.1 rfl
  · cases hhas : mapHas (processOne cfgNoF fsEmpty stA "root/b").state.paths "b/c" with
    | false => rfl
    | true =>
      have h2 := (h.2.1 "b/c").1 hhas
      have : strStartsWith "b/c" ("b" ++ "/") = true := by decide
      rw [h2.2.2] at this
      cases this
  · exact (h.2.1 "a").2 ⟨by decide, by decide, by decide⟩
  · obtain ⟨st, hget, hev⟩ := h.2.2
    have hst : st = ⟨true, 2⟩ := by
      have h2 : (some st : Option Stats) = some ⟨true, 2⟩ := by
        rw [← hget]
        decide
      exact Option.some.inj h2
    rw [hev, hst]
    decide

/-- C3: a drained path whose stat succeeds, passes the filter, is a
directory and is not yet watched is handed to the Recursor (all its
discoveries land in the Snapshot and Watch Tables), after which one
`isNew = true` create event is emitted for every Snapshot Table path
strictly nested under the directory (in table order), after the
directory's own create/update event. -/
theorem c3_new_directory_cascade (cfg : Cfg) (fs : FSNode) (s : WatchState) (full : String)
    (stats : Stats) (node : FSNode)
    (hexp : s.pathsExposed = true)
    (hstat : statFS fs cfg.dir full = some stats)
    (hfil : applyFilt cfg.filt (relOf cfg.dir full) stats = .ok true)
    (hroot : relOf cfg.dir full ≠ "")
    (hdir : stats.isDir = true)
    (hnw : s.watchers.contains (relOf cfg.dir full) = false)
    (hfind : findNode fs (segsOf (relOf cfg.dir full)) = some node)
    (hnothrow : (recurseTree cfg.filt cfg.watchEnabled (relOf cfg.dir full) node).threw
      = false) :
    (∀ kv ∈ (recurseTree cfg.filt cfg.watchEnabled (relOf cfg.dir full) node).paths,
      mapHas (processOne cfg fs s full).state.paths kv.1 = true) ∧
    (∀ k ∈ (recurseTree cfg.filt cfg.watchEnabled (relOf cfg.dir full) node).watchers,
      k ∈ (processOne cfg fs s full).state.watchers) ∧
    (processOne cfg fs s full).events =
      WEvent.plus (relOf cfg.dir full) stats (!(mapHas s.paths (relOf cfg.dir full))) ::
        ((processOne cfg fs s full).state.paths.filter
          (fun kv => strStartsWith kv.1 (relOf cfg.dir full ++ "/"))).map
          (fun kv => WEvent.plus kv.1 kv.2 true) := by
  rw [processOne_ok_dirnew cfg fs s full stats node hstat hfil hexp hdir hnw hfind hnothrow]
  refine ⟨?_, ?_, ?_⟩
  · intro kv hkv
    exact mergePaths_has_of_mem _ _ kv.1 kv.2 hkv
  · intro k hk
    exact (mem_mergeWatch _ _ _).2 (Or.inr hk)
  · rw [if_neg hroot]
    rfl

/-- Witness for C3: the directory `b` (with its file `b/c`) appears in a
tree where only `a` was tracked; the step recurses into `b`, records and
watches it, and emits `isNew = true` creates for `b` and `b/c`. -/
theorem c3_witness :
    mapHas (processOne cfgNoF fsA stNoB "root/b").state.paths "b/c" = true ∧
    "b" ∈ (processOne cfgNoF fsA stNoB "root/b").state.watchers ∧
    (processOne cfgNoF fsA stNoB "root/b").events =
      [WEvent.plus "b" ⟨true, 2⟩ true, WEvent.plus "b/c" ⟨false, 3⟩ true] := by
  obtain ⟨h1, h2, h3⟩ := c3_new_directory_cascade cfgNoF fsA stNoB "root/b" ⟨true, 2⟩
    (FSNode.dir 2 (.cons "c" (.file 3) .nil)) (by decide) (by decide) (by decide)
    (by decide) (by decide) (by decide) rfl (by decide)
  refine ⟨h1 ("b/c", ⟨false, 3⟩) (by decide), h2 "b" (by decide), ?_⟩
  rw [h3]
  decide

/-- If every addition for key `k` carries the value `v`, the last one
does too. -/
theorem lastVal_val (adds : List (String × Stats)) (k : String) (v : Stats)
    (h : ∀ kv ∈ adds, kv.1 = k → kv.2 = v) :
    lastVal adds k = none ∨ lastVal adds k = some v := by
  induction adds with
  | nil => exact Or.inl rfl
  | cons kv rest ih =>
    have ih2 := ih (fun kv2 h2 he => h kv2 (List.mem_cons_of_mem _ h2) he)
    simp only [lastVal]
    rcases ih2 with h2 | h2 <;> rw [h2]
    · by_cases hk : kv.1 = k
      · rw [if_pos hk, h kv (List.mem_cons_self _ _) hk]
        exact Or.inr rfl
      · rw [if_neg hk]
        exact Or.inl rfl
    · exact Or.inr rfl

/-- C4: a drained path whose stat succeeds and passes the filter produces
exactly one `'+'` event carrying that path, the fresh stats, and
`isNew` true exactly when the relative path was absent from the Snapshot
Table before the step; the stats are recorded under the relative path,
overwriting any previous entry. -/
theorem c4_create_update_event (cfg : Cfg) (fs : FSNode) (s : WatchState) (full : String)
    (stats : Stats)
    (hexp : s.pathsExposed = true)
    (hstat : statFS fs cfg.dir full = some stats)
    (hfil : applyFilt cfg.filt (relOf cfg.dir full) stats = .ok true)
    (hroot : relOf cfg.dir full ≠ "")
    (hnothrow : (processOne cfg fs s full).threw = false) :
    (processOne cfg fs s full).events.filter
        (fun e => e.path = relOf cfg.dir full) =
      [WEvent.plus (relOf cfg.dir full) stats (!(mapHas s.paths (relOf cfg.dir full)))] ∧
    mapGet (processOne cfg fs s full).state.paths (relOf cfg.dir full) = some stats := by
  cases hcond : (stats.isDir && !(s.watchers.contains (relOf cfg.dir full))) with
  | false =>
    rw [processOne_ok_plain cfg fs s full stats hstat hfil hexp hcond]
    constructor
    · rw [if_neg hroot]
      simp [WEvent.path]
    · exact mapGet_set_self s.paths (relOf cfg.dir full) stats
  | true =>
    have hboth : stats.isDir = true ∧ s.watchers.contains (relOf cfg.dir full) = false := by
      simpa using hcond
    obtain ⟨hdir, hw⟩ := hboth
    cases hfind : findNode fs (segsOf (relOf cfg.dir full)) with
    | none =>
      rw [processOne_ok_dirnofind cfg fs s full stats hstat hfil hexp hdir hw hfind]
        at hnothrow
      cases hnothrow
    | some node =>
      have hstats : node.statsOf = stats := by
        unfold statFS at hstat
        rw [hfind] at hstat
        exact Option.some.inj hstat
      cases hthrew : (recurseTree cfg.filt cfg.watchEnabled (relOf cfg.dir full) node).threw with
      | true =>
        rw [processOne_ok_dirthrow cfg fs s full stats node hstat hfil hexp hdir hw hfind hthrew]
          at hnothrow
        cases hnothrow
      | false =>
        rw [processOne_ok_dirnew cfg fs s full stats node hstat hfil hexp hdir hw hfind hthrew]
        constructor
        · rw [if_neg hroot]
          rw [List.filter_append]
          have h1 : [WEvent.plus (relOf cfg.dir full) stats
              (!(mapHas s.paths (relOf cfg.dir full)))].filter
              (fun e => e.path = relOf cfg.dir full) =
              [WEvent.plus (relOf cfg.dir full) stats (!(mapHas s.paths (relOf cfg.dir full)))] := by
            simp [WEvent.path]
          have h2 : (((mergePaths (mapSet s.paths (relOf cfg.dir full) stats)
              (recurseTree cfg.filt cfg.watchEnabled (relOf cfg.dir full) node).paths).filter
              (fun kv => strStartsWith kv.1 (relOf cfg.dir full ++ "/"))).map
              (fun kv => WEvent.plus kv.1 kv.2 true)).filter
              (fun e => e.path = relOf cfg.dir full) = [] := by
            refine List.filter_eq_nil_iff.2 ?_
            intro e he
            rcases List.mem_map.1 he with ⟨kv, hkv, rfl⟩
            have hsw := List.of_mem_filter hkv
            simp only [WEvent.path, decide_eq_true_eq]
            exact startsWith_slash_ne hsw
          rw [h1, h2, List.append_nil]
        · have hvals : ∀ kv ∈ (recurseTree cfg.filt cfg.watchEnabled
              (relOf cfg.dir full) node).paths, kv.1 = relOf cfg.dir full → kv.2 = stats := by
            intro kv hkv he
            rcases recurseTree_paths_shape cfg.filt cfg.watchEnabled (relOf cfg.dir full)
                node hroot kv hkv with ⟨_, h2⟩ | h1
            · rw [h2, hstats]
            · exact absurd he (startsWith_slash_ne h1)
          rcases lastVal_val (recurseTree cfg.filt cfg.watchEnabled
              (relOf cfg.dir full) node).paths (relOf cfg.dir full) stats hvals with h | h
          · show mapGet (mergePaths (mapSet s.paths (relOf cfg.dir full) stats) _)
              (relOf cfg.dir full) = some stats
            rw [mergePaths_get, h]
            exact mapGet_set_self s.paths (relOf cfg.dir full) stats
          · show mapGet (mergePaths (mapSet s.paths (relOf cfg.dir full) stats) _)
              (relOf cfg.dir full) = some stats
            rw [mergePaths_get, h]

/-- Witness for C4: re-writing the already tracked file `a` yields one
update event (`isNew = false`) and re-records its stats. -/
theorem c4_witness :
    (processOne cfgNoF fsA stA "root/a").events.filter (fun e => e.path = "a") =
      [WEvent.plus "a" ⟨false, 1⟩ false] ∧
    mapGet (processOne cfgNoF fsA stA "root/a").state.paths "a" = some ⟨false, 1⟩ := by
  have h := c4_create_update_event cfgNoF fsA stA "root/a" ⟨false, 1⟩ (by decide) (by decide)
    (by decide) (by decide) (by decide)
  exact h

/-- C5: a failed stat is treated uniformly as absence and never surfaced
as an error. If the relative path is a known Snapshot Table key, the entry
is removed and a delete event carrying the last known StatRecord is
emitted (first); if the path is unknown to both the Snapshot Table and
the Watch Table, nothing is emitted and the state does not change. -/
theorem c5_stat_failure_is_absence (cfg : Cfg) (fs : FSNode) (s : WatchState) (full : String)
    (hexp : s.pathsExposed = true)
    (hstat : statFS fs cfg.dir full = none) :
    (∀ st, mapGet s.paths (relOf cfg.dir full) = some st →
      mapGet (processOne cfg fs s full).state.paths (relOf cfg.dir full) = none ∧
      (processOne cfg fs s full).events.head? =
        some (WEvent.minus (relOf cfg.dir full) st) ∧
      (processOne cfg fs s full).threw = false) ∧
    (mapGet s.paths (relOf cfg.dir full) = none → relOf cfg.dir full ∉ s.watchers →
      processOne cfg fs s full = ⟨s, [], false⟩) := by
  constructor
  · intro st hget
    cases hw : s.watchers.contains (relOf cfg.dir full) with
    | false =>
      rw [processOne_del_plain cfg fs s full st hstat hexp hget hw]
      refine ⟨?_, rfl, rfl⟩
      rw [mapGet_delete]
      simp
    | true =>
      rw [processOne_del_cascade cfg fs s full st hstat hexp hget hw]
      refine ⟨?_, rfl, rfl⟩
      show mapGet ((mapDelete s.paths (relOf cfg.dir full)).filter
        (fun kv => !(strStartsWith kv.1 (relOf cfg.dir full ++ "/")))) (relOf cfg.dir full) = none
      rw [mapGet_filterKey (fun x => !(strStartsWith x (relOf cfg.dir full ++ "/")))]
      rw [mapGet_delete]
      simp
  · intro hget _hnw
    exact processOne_del_unknown cfg fs s full hstat hexp hget

/-- Witness for C5: deleting the tracked file `a` removes it and reports
it; a stat failure for the untracked `z` does nothing. -/
theorem c5_witness :
    (mapGet (processOne cfgNoF fsEmpty stA "root/a").state.paths "a" = none ∧
      (processOne cfgNoF fsEmpty stA "root/a").events.head? =
        some (WEvent.minus "a" ⟨false, 1⟩) ∧
      (processOne cfgNoF fsEmpty stA "root/a").threw = false) ∧
    processOne cfgNoF fsEmpty stA "root/z" = ⟨stA, [], false⟩ :=
  ⟨(c5_stat_failure_is_absence cfgNoF fsEmpty stA "root/a" (by decide) (by decide)).1
      ⟨false, 1⟩ (by decide),
    (c5_stat_failure_is_absence cfgNoF fsEmpty stA "root/z" (by decide) (by decide)).2
      (by decide) (by decide)⟩

/-! ### Machinery for C7: a rejected path seals off its whole cone -/

/-- The relative path reached from `r` by following the child names in
`segs`. -/
def relAppend (r : String) (segs : List String) : String :=
  segs.foldl joinRel r

theorem relAppend_cons (r x : String) (segs : List String) :
    relAppend r (x :: segs) = relAppend (joinRel r x) segs :=
  rfl

theorem relAppend_ne_empty (segs : List String) :
    ∀ r : String, r ≠ "" → relAppend r segs ≠ "" := by
  induction segs with
  | nil => intro r hr; exact hr
  | cons x rest ih =>
    intro r hr
    exact ih (joinRel r x) (joinRel_ne_empty_left x hr)

theorem relAppend_shape (segs : List String) :
    ∀ r : String, r ≠ "" →
      ∃ ext, (relAppend r segs).data = r.data ++ ext ∧ (ext = [] ∨ ∃ t, ext = '/' :: t) := by
  induction segs with
  | nil =>
    intro r _
    exact ⟨[], by simp [relAppend], Or.inl rfl⟩
  | cons x rest ih =>
    intro r hr
    obtain ⟨ext, hdata, _⟩ := ih (joinRel r x) (joinRel_ne_empty_left x hr)
    refine ⟨'/' :: (x.data ++ ext), ?_, Or.inr ⟨_, rfl⟩⟩
    rw [relAppend_cons, hdata, joinRel_data]
    simp [baseData, if_neg hr, List.append_assoc]

theorem eqOrUnder_relAppend_self (segs : List String) (r : String) (hr : r ≠ "") :
    eqOrUnder (relAppend r segs) r = true := by
  obtain ⟨ext, hdata, hsh⟩ := relAppend_shape segs r hr
  rw [eqOrUnder_iff]
  rcases hsh with rfl | ⟨t, rfl⟩
  · left
    rw [hdata, List.append_nil]
  · right
    exact ⟨t, hdata.symm⟩

theorem eqOrUnder_extension_false (r p : String) (d : List Char) (hd : d ≠ [])
    (hdata : p.data = r.data ++ d) : eqOrUnder r p = false := by
  rw [Bool.eq_false_iff]
  intro h
  rw [eqOrUnder_iff] at h
  have hdl : 0 < d.length := List.length_pos.2 hd
  rcases h with h | ⟨t, ht⟩
  · rw [hdata] at h
    have h2 := congrArg List.length h
    simp only [List.length_append] at h2
    omega
  · have h1 := congrArg List.length ht
    have h2 := congrArg List.length hdata
    simp only [List.length_append, List.length_cons] at h1 h2
    omega

theorem empty_eqOrUnder_false (p : String) (hp : p ≠ "") : eqOrUnder "" p = false := by
  rw [Bool.eq_false_iff]
  intro h
  rw [eqOrUnder_iff] at h
  rcases h with h | ⟨t, ht⟩
  · exact hp (String.ext h.symm)
  · have : p.data ++ '/' :: t = [] := ht
    rcases List.append_eq_nil.1 this with ⟨_, h2⟩
    cases h2

/-- Flatten a listing for reasoning about membership. -/
def FSList.toList : FSList → List (String × FSNode)
  | .nil => []
  | .cons n c rest => (n, c) :: rest.toList

theorem recurseKids_paths_sub (f : Option Filt) (w : Bool) (r : String) (cs : FSList) :
    ∀ kv ∈ (recurseKids f w r cs).paths,
      ∃ nc ∈ cs.toList, kv ∈ (recurseTree f w (joinRel r nc.1) nc.2).paths := by
  cases cs with
  | nil => intro kv hkv; cases hkv
  | cons n c rest =>
    intro kv hkv
    unfold recurseKids at hkv
    by_cases ht : (recurseTree f w (joinRel r n) c).threw = true
    · rw [if_pos ht] at hkv
      exact ⟨(n, c), List.mem_cons_self _ _, hkv⟩
    · rw [if_neg ht] at hkv
      rcases List.mem_append.1 hkv with h | h
      · exact ⟨(n, c), List.mem_cons_self _ _, h⟩
      · obtain ⟨nc, hmem, hkv2⟩ := recurseKids_paths_sub f w r rest kv h
        exact ⟨nc, List.mem_cons_of_mem _ hmem, hkv2⟩

theorem recurseKids_watchers_sub (f : Option Filt) (w : Bool) (r : String) (cs : FSList) :
    ∀ k ∈ (recurseKids f w r cs).watchers,
      ∃ nc ∈ cs.toList, k ∈ (recurseTree f w (joinRel r nc.1) nc.2).watchers := by
  cases cs with
  | nil => intro k hk; cases hk
  | cons n c rest =>
    intro k hk
    unfold recurseKids at hk
    by_cases ht : (recurseTree f w (joinRel r n) c).threw = true
    · rw [if_pos ht] at hk
      exact ⟨(n, c), List.mem_cons_self _ _, hk⟩
    · rw [if_neg ht] at hk
      rcases List.mem_append.1 hk with h | h
      · exact ⟨(n, c), List.mem_cons_self _ _, h⟩
      · obtain ⟨nc, hmem, hk2⟩ := recurseKids_watchers_sub f w r rest k h
        exact ⟨nc, List.mem_cons_of_mem _ hmem, hk2⟩

theorem wf_dir (tag : Nat) (cs : FSList) (h : FSNode.wf (.dir tag cs) = true) :
    nodupNames cs.names = true ∧ cs.wf = true := by
  have h2 : (nodupNames cs.names && FSList.wf cs) = true := h
  simpa [Bool.and_eq_true] using h2

theorem wf_entry (cs : FSList) (hwf : cs.wf = true) :
    ∀ nc ∈ cs.toList, nc.1 ≠ "" ∧ '/' ∉ nc.1.data ∧ nc.2.wf = true := by
  cases cs with
  | nil => intro nc h; cases h
  | cons n c rest =>
    have h2 : (decide ¬(n = "") && !n.data.contains '/' && FSNode.wf c && FSList.wf rest)
        = true := hwf
    simp only [Bool.and_eq_true, decide_eq_true_eq, Bool.not_eq_true] at h2
    obtain ⟨⟨⟨hne, hnc⟩, hcwf⟩, hrest⟩ := h2
    intro nc hmem
    rcases List.mem_cons.1 hmem with rfl | hmem2
    · refine ⟨hne, ?_, hcwf⟩
      intro hin
      rw [(contains_iff_mem n.data '/').2 hin] at hnc
      cases hnc
    · exact wf_entry rest hrest nc hmem2

theorem mem_names_of_mem_toList (cs : FSList) :
    ∀ nc ∈ cs.toList, nc.1 ∈ cs.names := by
  cases cs with
  | nil => intro nc h; cases h
  | cons n c rest =>
    intro nc hmem
    rcases List.mem_cons.1 hmem with rfl | hmem2
    · exact List.mem_cons_self _ _
    · exact List.mem_cons_of_mem _ (mem_names_of_mem_toList rest nc hmem2)

theorem lookup_mem (cs : FSList) (k : String) (c : FSNode)
    (h : cs.lookup k = some c) : (k, c) ∈ cs.toList := by
  cases cs with
  | nil => cases h
  | cons n c2 rest =>
    unfold FSList.lookup at h
    by_cases hn : n = k
    · rw [if_pos hn] at h
      rcases Option.some.inj h with rfl
      rw [← hn]
      exact List.mem_cons_self _ _
    · rw [if_neg hn] at h
      exact List.mem_cons_of_mem _ (lookup_mem rest k c h)

theorem lookup_of_nodup (cs : FSList) (hnod : nodupNames cs.names = true) :
    ∀ nc ∈ cs.toList, cs.lookup nc.1 = some nc.2 := by
  cases cs with
  | nil => intro nc h; cases h
  | cons n c rest =>
    have h2 : (!(FSList.names rest).contains n && nodupNames (FSList.names rest)) = true :=
      hnod
    simp only [Bool.and_eq_true, Bool.not_eq_true] at h2
    obtain ⟨hcon, hnod2⟩ := h2
    intro nc hmem
    rcases List.mem_cons.1 hmem with rfl | hmem2
    · unfold FSList.lookup
      rw [if_pos rfl]
    · unfold FSList.lookup
      have hn : n ≠ nc.1 := by
        intro he
        have := mem_names_of_mem_toList rest nc hmem2
        rw [← he] at this
        rw [(contains_iff_mem _ _).2 this] at hcon
        cases hcon
      rw [if_neg hn]
      exact lookup_of_nodup rest hnod2 nc hmem2

theorem findNode_nil (t : FSNode) : findNode t [] = some t := by
  cases t <;> rfl

/-- Core of C7: walking `t` from relative path `r`, if the existing node
at `segs` below `r` is rejected by the filter, then nothing the walk
records or watches is at or under that node's relative path. -/
theorem c7core (f : Option Filt) (w : Bool) :
    ∀ (segs : List String) (r : String) (t : FSNode) (node : FSNode),
      t.wf = true →
      (r ≠ "" ∨ segs ≠ []) →
      findNode t segs = some node →
      applyFilt f (relAppend r segs) node.statsOf = .ok false →
      (∀ kv ∈ (recurseTree f w r t).paths, eqOrUnder kv.1 (relAppend r segs) = false) ∧
      (∀ k ∈ (recurseTree f w r t).watchers, eqOrUnder k (relAppend r segs) = false) := by
  intro segs
  induction segs with
  | nil =>
    intro r t node hwf hne hfind hfil
    have hr : r ≠ "" := by
      rcases hne with h | h
      · exact h
      · exact absurd rfl h
    rw [findNode_nil] at hfind
    have ht : t = node := Option.some.inj hfind
    subst ht
    rw [recurseTree_reject f w r t hr hfil]
    exact ⟨fun kv hkv => absurd hkv (List.not_mem_nil kv),
      fun k hk => absurd hk (List.not_mem_nil k)⟩
  | cons seg rest ih =>
    intro r t node hwf hne hfind hfil
    cases t with
    | file tag => exact absurd hfind (by simp [findNode])
    | dir tag cs =>
      have hfind2 := hfind
      unfold findNode at hfind2
      cases hl : cs.lookup seg with
      | none =>
        rw [hl] at hfind2
        cases hfind2
      | some tc =>
        rw [hl] at hfind2
        obtain ⟨hnod, hcswf⟩ := wf_dir tag cs hwf
        have hmemseg := lookup_mem cs seg tc hl
        obtain ⟨hsegne, hsegsl, htcwf⟩ := wf_entry cs hcswf (seg, tc) hmemseg
        have hjne : joinRel r seg ≠ "" := joinRel_ne_empty hsegne
        have hpne : relAppend r (seg :: rest) ≠ "" := by
          rw [relAppend_cons]
          exact relAppend_ne_empty rest _ hjne
        have hIH := ih (joinRel r seg) tc node htcwf (Or.inl hjne) hfind2
          (by rw [← relAppend_cons]; exact hfil)
        have hpunder : eqOrUnder (relAppend r (seg :: rest)) (joinRel r seg) = true := by
          rw [relAppend_cons]
          exact eqOrUnder_relAppend_self rest _ hjne
        have hkids_paths : ∀ kv ∈ (recurseKids f w r cs).paths,
            eqOrUnder kv.1 (relAppend r (seg :: rest)) = false := by
          intro kv hkv
          obtain ⟨nc, hnc, hkv2⟩ := recurseKids_paths_sub f w r cs kv hkv
          obtain ⟨hnne, hnsl, _⟩ := wf_entry cs hcswf nc hnc
          by_cases hns : nc.1 = seg
          · have hlook := lookup_of_nodup cs hnod nc hnc
            rw [hns, hl] at hlook
            have htc : nc.2 = tc := (Option.some.inj hlook).symm
            rw [relAppend_cons]
            apply hIH.1 kv
            rw [← hns, ← htc]
            exact hkv2
          · have hkeq : eqOrUnder kv.1 (joinRel r nc.1) = true := by
              rcases recurseTree_paths_shape f w (joinRel r nc.1) nc.2
                  (joinRel_ne_empty hnne) kv hkv2 with ⟨h1, _⟩ | h1
              · simp [eqOrUnder, h1]
              · simp [eqOrUnder, h1]
            exact eqOrUnder_sibling hns hnsl hsegsl hkeq hpunder
        have hkids_watchers : ∀ k ∈ (recurseKids f w r cs).watchers,
            eqOrUnder k (relAppend r (seg :: rest)) = false := by
          intro k hk
          obtain ⟨nc, hnc, hk2⟩ := recurseKids_watchers_sub f w r cs k hk
          obtain ⟨hnne, hnsl, _⟩ := wf_entry cs hcswf nc hnc
          by_cases hns : nc.1 = seg
          · have hlook := lookup_of_nodup cs hnod nc hnc
            rw [hns, hl] at hlook
            have htc : nc.2 = tc := (Option.some.inj hlook).symm
            rw [relAppend_cons]
            apply hIH.2 k
            rw [← hns, ← htc]
            exact hk2
          · have hkeq : eqOrUnder k (joinRel r nc.1) = true := by
              rcases recurseTree_watchers_shape f w (joinRel r nc.1) nc.2
                  (joinRel_ne_empty hnne) k hk2 with h1 | h1
              · simp [eqOrUnder, h1]
              · simp [eqOrUnder, h1]
            exact eqOrUnder_sibling hns hnsl hsegsl hkeq hpunder
        have hown : r ≠ "" → eqOrUnder r (relAppend r (seg :: rest)) = false := by
          intro hr
          obtain ⟨ext, hdata⟩ :
              ∃ ext, (relAppend r (seg :: rest)).data = r.data ++ '/' :: ext := by
            rw [relAppend_cons]
            obtain ⟨ext2, hdata2, _⟩ := relAppend_shape rest (joinRel r seg) hjne
            refine ⟨seg.data ++ ext2, ?_⟩
            rw [hdata2, joinRel_data]
            simp [baseData, if_neg hr, List.append_assoc]
          exact eqOrUnder_extension_false r _ ('/' :: ext) (by simp) hdata
        by_cases hr : r = ""
        · subst hr
          constructor
          · intro kv hkv
            rw [recurseTree_root] at hkv
            exact hkids_paths kv hkv
          · intro k hk
            rw [recurseTree_root] at hk
            rcases List.mem_append.1 hk with h | h
            · cases w with
              | false => cases h
              | true =>
                rcases List.mem_singleton.1 (by simpa using h) with rfl
                exact empty_eqOrUnder_false _ hpne
            · exact hkids_watchers k h
        · cases hfil2 : applyFilt f r (FSNode.dir tag cs).statsOf with
          | error e =>
            rw [recurseTree_err f w r _ e hr hfil2]
            exact ⟨fun kv hkv => absurd hkv (List.not_mem_nil kv),
              fun k hk => absurd hk (List.not_mem_nil k)⟩
          | ok b =>
            cases b with
            | false =>
              rw [recurseTree_reject f w r _ hr hfil2]
              exact ⟨fun kv hkv => absurd hkv (List.not_mem_nil kv),
                fun k hk => absurd hk (List.not_mem_nil k)⟩
            | true =>
              constructor
              · intro kv hkv
                rw [recurseTree_accept_dir f w r tag cs hr hfil2] at hkv
                rcases List.mem_cons.1 hkv with rfl | h2
                · exact hown hr
                · exact hkids_paths kv h2
              · intro k hk
                rw [recurseTree_accept_dir f w r tag cs hr hfil2] at hk
                rcases List.mem_append.1 hk with h2 | h2
                · cases w with
                  | false => cases h2
                  | true =>
                    rcases List.mem_singleton.1 (by simpa using h2) with rfl
                    exact hown hr
                · exact hkids_watchers k h2

/-- A key set by `mapSet` is either an old key or the one just set. -/
theorem mem_mapSet (m : List (String × Stats)) (a : String) (b : Stats) :
    ∀ kv ∈ mapSet m a b, kv ∈ m ∨ kv.1 = a := by
  induction m with
  | nil =>
    intro kv hkv
    rcases List.mem_singleton.1 hkv with rfl
    exact Or.inr rfl
  | cons kv1 rest ih =>
    intro kv hkv
    unfold mapSet at hkv
    by_cases h1 : kv1.1 = a
    · rw [if_pos h1] at hkv
      rcases List.mem_cons.1 hkv with rfl | h2
      · exact Or.inr h1
      · exact Or.inl (List.mem_cons_of_mem _ h2)
    · rw [if_neg h1] at hkv
      rcases List.mem_cons.1 hkv with rfl | h2
      · exact Or.inl (List.mem_cons_self _ _)
      · rcases ih kv h2 with h3 | h3
        · exact Or.inl (List.mem_cons_of_mem _ h3)
        · exact Or.inr h3

/-- A key of a merged table is an old key or an added key. -/
theorem mem_mergePaths (adds : List (String × Stats)) :
    ∀ (m : List (String × Stats)), ∀ kv ∈ mergePaths m adds,
      kv ∈ m ∨ ∃ v2, (kv.1, v2) ∈ adds := by
  induction adds with
  | nil =>
    intro m kv hkv
    exact Or.inl hkv
  | cons a rest ih =>
    intro m kv hkv
    rcases ih (mapSet m a.1 a.2) kv hkv with h | ⟨v2, h⟩
    · rcases mem_mapSet m a.1 a.2 kv h with h2 | h2
      · exact Or.inl h2
      · exact Or.inr ⟨a.2, by rw [h2]; exact List.mem_cons_self _ _⟩
    · exact Or.inr ⟨v2, List.mem_cons_of_mem _ h⟩

/-- No key the Recursor adds below any starting point is the empty
string, provided the listing is well formed. -/
theorem recurseKids_keys_ne (f : Option Filt) (w : Bool) (r : String) (cs : FSList)
    (hwf : cs.wf = true) :
    ∀ kv ∈ (recurseKids f w r cs).paths, kv.1 ≠ "" := by
  cases cs with
  | nil => intro kv hkv; cases hkv
  | cons n c rest =>
    have hwf2 : (decide ¬(n = "") && !n.data.contains '/' && FSNode.wf c && FSList.wf rest)
        = true := hwf
    simp only [Bool.and_eq_true, decide_eq_true_eq] at hwf2
    obtain ⟨⟨⟨hne, _⟩, _⟩, hrest⟩ := hwf2
    have hj : joinRel r n ≠ "" := joinRel_ne_empty hne
    have hsub : ∀ kv ∈ (recurseTree f w (joinRel r n) c).paths, kv.1 ≠ "" := by
      intro kv hkv
      rcases recurseTree_paths_shape f w (joinRel r n) c hj kv hkv with ⟨h1, _⟩ | h1
      · rw [h1]; exact hj
      · exact startsWith_slash_ne_empty h1
    intro kv hkv
    unfold recurseKids at hkv
    by_cases ht : (recurseTree f w (joinRel r n) c).threw = true
    · rw [if_pos ht] at hkv
      exact hsub kv hkv
    · rw [if_neg ht] at hkv
      rcases List.mem_append.1 hkv with h | h
      · exact hsub kv h
      · exact recurseKids_keys_ne f w r rest hrest kv h

/-- A key absent from every entry has no table value. -/
theorem mapGet_none_of_ne (m : List (String × Stats)) (k : String)
    (h : ∀ kv ∈ m, kv.1 ≠ k) : mapGet m k = none := by
  induction m with
  | nil => rfl
  | cons kv rest ih =>
    unfold mapGet
    rw [if_neg (h kv (List.mem_cons_self _ _))]
    exact ih (fun kv2 h2 => h kv2 (List.mem_cons_of_mem _ h2))

/-- C6: the empty relative path (the root) is never stored as a Snapshot
Table key by the Recursor, and — for drained paths whose relative path is
nonempty, which all queue entries built by the debounce handler have —
one drain iteration neither stores the empty key nor emits any event
whose path is the empty string. -/
theorem c6_root_never_recorded_or_emitted :
    (∀ (f : Option Filt) (w : Bool) (fs : FSNode), fs.wf = true →
      ∀ kv ∈ (recurseTree f w "" fs).paths, kv.1 ≠ "") ∧
    (∀ (cfg : Cfg) (fs : FSNode) (s : WatchState) (full : String),
      relOf cfg.dir full ≠ "" →
      (∀ kv ∈ s.paths, kv.1 ≠ "") →
      (∀ kv ∈ (processOne cfg fs s full).state.paths, kv.1 ≠ "") ∧
      (∀ e ∈ (processOne cfg fs s full).events, e.path ≠ "")) := by
  constructor
  · intro f w fs hwf kv hkv
    cases fs with
    | file tag =>
      rw [recurseTree_root] at hkv
      cases hkv
    | dir tag cs =>
      rw [recurseTree_root] at hkv
      have hwf2 : (nodupNames cs.names && FSList.wf cs) = true := hwf
      simp only [Bool.and_eq_true] at hwf2
      exact recurseKids_keys_ne f w "" cs hwf2.2 kv hkv
  · intro cfg fs s full hroot hkeys
    have hsetKeys : ∀ stats, ∀ kv ∈ mapSet s.paths (relOf cfg.dir full) stats,
        kv.1 ≠ "" := by
      intro stats kv hkv
      rcases mem_mapSet s.paths (relOf cfg.dir full) stats kv hkv with h | h
      · exact hkeys kv h
      · rw [h]; exact hroot
    have hshapeKeys : ∀ node, ∀ kv ∈ (recurseTree cfg.filt cfg.watchEnabled
        (relOf cfg.dir full) node).paths, kv.1 ≠ "" := by
      intro node kv hkv
      rcases recurseTree_paths_shape cfg.filt cfg.watchEnabled (relOf cfg.dir full) node
          hroot kv hkv with ⟨h1, _⟩ | h1
      · rw [h1]; exact hroot
      · exact startsWith_slash_ne_empty h1
    have hmergeKeys : ∀ stats node, ∀ kv ∈
        mergePaths (mapSet s.paths (relOf cfg.dir full) stats)
          (recurseTree cfg.filt cfg.watchEnabled (relOf cfg.dir full) node).paths,
        kv.1 ≠ "" := by
      intro stats node kv hkv
      rcases mem_mergePaths _ _ kv hkv with h | ⟨v2, h⟩
      · exact hsetKeys stats kv h
      · exact hshapeKeys node (kv.1, v2) h
    have hevs1 : ∀ stats isNew, ∀ e ∈ (if relOf cfg.dir full = "" then []
        else [WEvent.plus (relOf cfg.dir full) stats isNew]), e.path ≠ "" := by
      intro stats isNew e he
      rw [if_neg hroot] at he
      rcases List.mem_singleton.1 he with rfl
      exact hroot
    cases hstat : statFS fs cfg.dir full with
    | none =>
      cases hexp : s.pathsExposed with
      | false =>
        rw [processOne_del_preInit cfg fs s full hstat hexp]
        exact ⟨hkeys, by simp⟩
      | true =>
        cases hget : mapGet s.paths (relOf cfg.dir full) with
        | none =>
          rw [processOne_del_unknown cfg fs s full hstat hexp hget]
          exact ⟨hkeys, by simp⟩
        | some st =>
          cases hw : s.watchers.contains (relOf cfg.dir full) with
          | false =>
            rw [processOne_del_plain cfg fs s full st hstat hexp hget hw]
            refine ⟨?_, ?_⟩
            · intro kv hkv
              exact hkeys kv (List.mem_filter.1 hkv).1
            · intro e he
              rcases List.mem_singleton.1 he with rfl
              exact hroot
          | true =>
            rw [processOne_del_cascade cfg fs s full st hstat hexp hget hw]
            refine ⟨?_, ?_⟩
            · intro kv hkv
              exact hkeys kv (List.mem_filter.1 (List.mem_filter.1 hkv).1).1
            · intro e he
              rcases List.mem_cons.1 he with rfl | he2
              · exact hroot
              · rcases List.mem_map.1 he2 with ⟨kv, hkv, rfl⟩
                show kv.1 ≠ ""
                exact startsWith_slash_ne_empty ((List.mem_filter.1 hkv).2)
    | some stats =>
      cases hfil2 : applyFilt cfg.filt (relOf cfg.dir full) stats with
      | error e =>
        rw [processOne_filterThrow cfg fs s full stats e hstat hfil2]
        exact ⟨hkeys, by simp⟩
      | ok b =>
        cases b with
        | false =>
          rw [processOne_filterReject cfg fs s full stats hstat hfil2]
          exact ⟨hkeys, by simp⟩
        | true =>
          cases hexp : s.pathsExposed with
          | false =>
            rw [processOne_ok_preInit cfg fs s full stats hstat hfil2 hexp]
            exact ⟨hkeys, by simp⟩
          | true =>
            cases hcond : (stats.isDir && !(s.watchers.contains (relOf cfg.dir full))) with
            | false =>
              rw [processOne_ok_plain cfg fs s full stats hstat hfil2 hexp hcond]
              exact ⟨hsetKeys stats, hevs1 stats _⟩
            | true =>
              have hboth : stats.isDir = true ∧
                  s.watchers.contains (relOf cfg.dir full) = false := by
                simpa using hcond
              obtain ⟨hdir, hw⟩ := hboth
              cases hfind : findNode fs (segsOf (relOf cfg.dir full)) with
              | none =>
                rw [processOne_ok_dirnofind cfg fs s full stats hstat hfil2 hexp hdir hw hfind]
                exact ⟨hsetKeys stats, hevs1 stats _⟩
              | some node =>
                cases hthrew : (recurseTree cfg.filt cfg.watchEnabled
                    (relOf cfg.dir full) node).threw with
                | true =>
                  rw [processOne_ok_dirthrow cfg fs s full stats node hstat hfil2 hexp hdir
                    hw hfind hthrew]
                  exact ⟨hmergeKeys stats node, hevs1 stats _⟩
                | false =>
                  rw [processOne_ok_dirnew cfg fs s full stats node hstat hfil2 hexp hdir
                    hw hfind hthrew]
                  refine ⟨hmergeKeys stats node, ?_⟩
                  intro e he
                  rcases List.mem_append.1 he with he2 | he2
                  · exact hevs1 stats _ e he2
                  · rcases List.mem_map.1 he2 with ⟨kv, hkv, rfl⟩
                    show kv.1 ≠ ""
                    exact startsWith_slash_ne_empty ((List.mem_filter.1 hkv).2)

/-- Witness for C6: neither the initial walk over `fsA` nor a delete
cascade drain step produces the empty key or an empty event path. -/
theorem c6_witness :
    mapGet (recurseTree cfgNoF.filt true "" fsA).paths "" = none ∧
    mapGet (processOne cfgNoF fsEmpty stA "root/b").state.paths "" = none ∧
    (("" : String) ∈ (processOne cfgNoF fsEmpty stA "root/b").events.map WEvent.path →
      False) := by
  have h := c6_root_never_recorded_or_emitted
  have h2 := h.2 cfgNoF fsEmpty stA "root/b" (by decide) (by decide)
  refine ⟨?_, ?_, ?_⟩
  · exact mapGet_none_of_ne _ "" (fun kv hkv => h.1 cfgNoF.filt true fsA (by decide) kv hkv)
  · exact mapGet_none_of_ne _ "" (fun kv hkv => h2.1 kv hkv)
  · intro hm
    rcases List.mem_map.1 hm with ⟨e, he, hp⟩
    exact h2.2 e he hp

/-- Root containing a directory `skip` (holding `inner`) and a file
`keep`. -/
def fsSkipDir : FSNode :=
  .dir 0 (.cons "skip" (.dir 1 (.cons "inner" (.file 2) .nil)) (.cons "keep" (.file 3) .nil))

/-- C7: a non-root path that exists in the (well-formed) tree and is
rejected by the filter stops the Recursor: over the whole walk from the
root, no Snapshot Table entry and no watch is created whose path equals
the rejected path or is nested under it — a rejected directory is never
entered, so none of its descendants are recorded or watched either. The
rejected path is `relAppend "" segs`, the relative path of the existing
node reached by following the child names `segs` from the root. -/
theorem c7_filter_reject_seals_cone (f : Option Filt) (w : Bool) (fs : FSNode)
    (segs : List String) (node : FSNode)
    (hwf : fs.wf = true)
    (hsegs : segs ≠ [])
    (hfind : findNode fs segs = some node)
    (hfil : applyFilt f (relAppend "" segs) node.statsOf = .ok false) :
    (∀ kv ∈ (recurseTree f w "" fs).paths,
      eqOrUnder kv.1 (relAppend "" segs) = false) ∧
    (∀ k ∈ (recurseTree f w "" fs).watchers,
      eqOrUnder k (relAppend "" segs) = false) :=
  c7core f w segs "" fs node hwf (Or.inr hsegs) hfind hfil

/-- Witness for C7: with a filter rejecting `skip`, the walk over
`fsSkipDir` records neither `skip` nor `skip/inner` and never watches
`skip`, even though `inner` itself would pass the filter. -/
theorem c7_witness :
    mapGet (recurseTree cfgRej.filt true "" fsSkipDir).paths "skip" = none ∧
    mapGet (recurseTree cfgRej.filt true "" fsSkipDir).paths "skip/inner" = none ∧
    (("skip" : String) ∈ (recurseTree cfgRej.filt true "" fsSkipDir).watchers → False) := by
  have h := c7_filter_reject_seals_cone cfgRej.filt true fsSkipDir ["skip"]
    (FSNode.dir 1 (.cons "inner" (.file 2) .nil)) (by decide) (by decide) rfl rfl
  have hrel : relAppend "" ["skip"] = "skip" := rfl
  rw [hrel] at h
  refine ⟨?_, ?_, ?_⟩
  · refine mapGet_none_of_ne _ "skip" ?_
    intro kv hkv he
    have h2 := h.1 kv hkv
    rw [he] at h2
    exact absurd h2 (by decide)
  · refine mapGet_none_of_ne _ "skip/inner" ?_
    intro kv hkv he
    have h2 := h.1 kv hkv
    rw [he] at h2
    exact absurd h2 (by decide)
  · intro hmem
    exact absurd (h.2 "skip" hmem) (by decide)

/-- C1 (code bug): the spec requires that the drain loop never run before
`init()` has completed, but the guard on line 127 tests the always-set
internal `this[_paths]` map (`internalPathsUnset` is constantly `false`)
instead of the public `this.paths`. Enqueueing the existing file `a` on a
freshly constructed, never-initialized instance therefore starts the
drain loop at once: the entry is consumed from the queue (the loop ran),
the iteration crashes with a `TypeError` reading `this.paths` (modelled
as `threw`), and `isProcessing` is left stuck at `true` — all before
`init()` was ever called. -/
theorem c1_drain_runs_before_init :
    publicPaths initialState = none ∧
    initialState.isInitStarted = false ∧
    (enqueue cfgNoF fsA initialState "root/a").state.queue = [] ∧
    (enqueue cfgNoF fsA initialState "root/a").threw = true ∧
    (enqueue cfgNoF fsA initialState "root/a").state.isProcessing = true := by
  decide

/-- C9: a filter that throws during a drain iteration leaves
`isProcessing` stuck at `true`: the throwing `enqueue` run ends thrown
with `isProcessing = true`, and every later `enqueue` only pushes onto
the queue — no entry is ever processed and no event is ever emitted
again. -/
theorem c9_filter_throw_wedges_drain (cfg : Cfg) (fs : FSNode) (s : WatchState)
    (full : String) (stats : Stats)
    (hq : s.queue = [])
    (hproc : s.isProcessing = false)
    (_hexp : s.pathsExposed = true)
    (hstat : statFS fs cfg.dir full = some stats)
    (hfil : applyFilt cfg.filt (relOf cfg.dir full) stats = .error ()) :
    (enqueue cfg fs s full).threw = true ∧
    (enqueue cfg fs s full).state.isProcessing = true ∧
    (enqueue cfg fs s full).events = [] ∧
    ∀ later : List String,
      (enqueueAll cfg fs (enqueue cfg fs s full).state later).2 = [] ∧
      (enqueueAll cfg fs (enqueue cfg fs s full).state later).1.paths =
        (enqueue cfg fs s full).state.paths ∧
      (enqueueAll cfg fs (enqueue cfg fs s full).state later).1.isProcessing = true ∧
      (enqueueAll cfg fs (enqueue cfg fs s full).state later).1.queue =
        (enqueue cfg fs s full).state.queue ++ later := by
  have hrun : enqueue cfg fs s full =
      ⟨{ s with queue := [], isProcessing := true }, [], true⟩ := by
    rw [enqueue_idle cfg fs s full hproc, hq, List.nil_append]
    show drainGo cfg fs { s with queue := [full], isProcessing := true } [full] = _
    rw [drainGo_cons]
    rw [processOne_filterThrow cfg fs _ full stats () hstat hfil]
    rfl
  rw [hrun]
  refine ⟨rfl, rfl, rfl, ?_⟩
  intro later
  rw [enqueueAll_busy cfg fs later { s with queue := [], isProcessing := true } rfl]
  exact ⟨rfl, rfl, rfl, rfl⟩

/-- Witness for C9: a throwing filter on an exposed single-file state;
afterwards two more enqueued paths just pile up unprocessed. -/
theorem c9_witness :
    (enqueue cfgThrow fsA
      ⟨[("a", ⟨false, 1⟩)], [""], [], [], false, true, true, false⟩ "root/a").threw = true ∧
    (enqueue cfgThrow fsA
      ⟨[("a", ⟨false, 1⟩)], [""], [], [], false, true, true, false⟩ "root/a").state.isProcessing
      = true ∧
    (enqueueAll cfgThrow fsA
      (enqueue cfgThrow fsA
        ⟨[("a", ⟨false, 1⟩)], [""], [], [], false, true, true, false⟩ "root/a").state
      ["root/a", "root/b"]).2 = [] ∧
    (enqueueAll cfgThrow fsA
      (enqueue cfgThrow fsA
        ⟨[("a", ⟨false, 1⟩)], [""], [], [], false, true, true, false⟩ "root/a").state
      ["root/a", "root/b"]).1.queue = ["root/a", "root/b"] := by
  have h := c9_filter_throw_wedges_drain cfgThrow fsA
    ⟨[("a", ⟨false, 1⟩)], [""], [], [], false, true, true, false⟩ "root/a" ⟨false, 1⟩
    rfl rfl rfl (by decide) rfl
  obtain ⟨h1, h2, _, h4⟩ := h
  obtain ⟨h5, _, _, h8⟩ := h4 ["root/a", "root/b"]
  refine ⟨h1, h2, h5, ?_⟩
  rw [h8]
  have hq : (enqueue cfgThrow fsA
      ⟨[("a", ⟨false, 1⟩)], [""], [], [], false, true, true, false⟩ "root/a").state.queue
      = [] := by decide
  rw [hq]
  rfl

/-- C10: before `init()` completes the public `paths` property is
`undefined`; a successful `init()` makes it the Snapshot Table itself
(the source assigns the same `Map` object, never a copy — modelled as the
single shared table plus the `pathsExposed` flag), and every subsequent
operation (drain iterations, `enqueue`, debounce bookkeeping, `close`)
preserves the aliasing, so each table mutation is immediately visible
through `paths`. -/
theorem c10_paths_aliases_snapshot (cfg : Cfg) :
    publicPaths initialState = none ∧
    (∀ fs s, s.isInitStarted = false → (runInit cfg fs s).2 = false →
      publicPaths (runInit cfg fs s).1 = some (runInit cfg fs s).1.paths) ∧
    (∀ fs s full, publicPaths s = some s.paths →
      publicPaths (processOne cfg fs s full).state =
        some (processOne cfg fs s full).state.paths) ∧
    (∀ fs s full, publicPaths s = some s.paths →
      publicPaths (enqueue cfg fs s full).state =
        some (enqueue cfg fs s full).state.paths) ∧
    (∀ s dir file id, publicPaths s = some s.paths →
      publicPaths (handleEvent s dir file id) = some (handleEvent s dir file id).paths) ∧
    (∀ s, publicPaths s = some s.paths →
      publicPaths (closeWatch s).1 = some (closeWatch s).1.paths) := by
  have hexp_of : ∀ s : WatchState, publicPaths s = some s.paths → s.pathsExposed = true := by
    intro s h
    by_cases he : s.pathsExposed = true
    · exact he
    · rw [publicPaths, if_neg he] at h
      cases h
  refine ⟨rfl, ?_, ?_, ?_, ?_, ?_⟩
  · intro fs s h h2
    rw [publicPaths, if_pos (runInit_exposes cfg fs s h h2)]
  · intro fs s full h
    rw [publicPaths,
      if_pos (by rw [processOne_pathsExposed cfg fs s full]; exact hexp_of s h)]
  · intro fs s full h
    have hexp := hexp_of s h
    by_cases hbusy : s.isProcessing = true
    · rw [enqueue_busy cfg fs s full hbusy]
      rw [publicPaths, if_pos hexp]
    · rw [enqueue_idle cfg fs s full (by
        cases hb : s.isProcessing
        · rfl
        · exact absurd hb hbusy)]
      rw [publicPaths, if_pos (by
        show (drainGo cfg fs _ _).state.pathsExposed = true
        rw [drainGo_pathsExposed]
        exact hexp)]
  · intro s dir file id h
    have hexp := hexp_of s h
    simp [handleEvent, publicPaths, hexp]
  · intro s h
    have hexp := hexp_of s h
    unfold closeWatch
    rw [hexp]
    by_cases hc : s.isClosed = true
    · simp [hc, publicPaths, hexp]
    · simp [hc, publicPaths, hexp]

/-- Witness for C10: after `init()` over `fsA` the exposed view is the
table itself, and it tracks a subsequent delete. -/
theorem c10_witness :
    publicPaths stA = some stA.paths ∧
    publicPaths (processOne cfgNoF fsEmpty stA "root/a").state =
      some (processOne cfgNoF fsEmpty stA "root/a").state.paths := by
  have h := c10_paths_aliases_snapshot cfgNoF
  have h1 : publicPaths stA = some stA.paths :=
    h.2.1 fsA initialState rfl (by decide)
  exact ⟨h1, h.2.2.1 fsEmpty stA "root/a" h1⟩

end CheapWatch
